import Mathlib

/-!
Sliding-window rate limiter (`task_3/main.go`)

A shallow embedding of `Limiter`, `NewLimiter`, `Limiter.Allow` and
`Limiter.GetStats`, followed by the properties proved about them.

Modelling conventions

* A `time.Time` is an integer number of nanoseconds on the process clock, and
  these integers are unbounded; `t.After(u)` is `u < t`.
* A `time.Duration` is an int64 number of nanoseconds.  The negation in
  `now.Add(-l.window)` is int64 negation, `negDuration`: it wraps at
  `math.MinInt64`, so that the cutoff is `now - l.window` for every other
  window and `now - 2^63` for that one.
* `time.Now()` is an explicit argument `now` of each operation.
* `map[string]*UserLimit` is an association list from user id to the
  `requests` slice of the `UserLimit` it points to; a key that is absent is a
  `nil` map lookup.  Writing through the pointer is `mapSet` at that key.
* `Allow` is the composition of its two critical sections, the one under the
  registry lock (`resolveOrCreate`) and the one under the user's lock
  (`checkUnderUserLock`).  A sequential call runs them back to back; a schedule
  of concurrent calls interleaves the sections of different goroutines, each
  section being atomic under its lock.
-/

namespace RateLimiter

/-- The `users` map: user id to the `requests` slice of its `UserLimit`. -/
abbrev Users := List (String × List Int)

/-- Map lookup `m[k]`; `none` is the `nil` pointer of an absent key. -/
def mapGet : Users → String → Option (List Int)
  | [], _ => none
  | (k', v) :: rest, k => if k' = k then some v else mapGet rest k

/-- Map store `m[k] = v`: overwrite the binding of `k`, or add one. -/
def mapSet : Users → String → List Int → Users
  | [], k, v => [(k, v)]
  | (k', v') :: rest, k, v =>
      if k' = k then (k, v) :: rest else (k', v') :: mapSet rest k v

/-- The keys of the `users` map. -/
def mapKeys (m : Users) : List String := m.map Prod.fst

/-- The `Limiter` struct (without its mutex). -/
structure Limiter where
  users : Users
  maxReqs : Int
  window : Int
  deriving DecidableEq, Repr

/-- `NewLimiter(maxReqs, window)`. -/
def NewLimiter (maxReqs : Int) (window : Int) : Limiter :=
  { users := [], maxReqs := maxReqs, window := window }

/-- `t.After(u)`. -/
def After (t u : Int) : Bool := decide (u < t)

/-- The constant `math.MinInt64`. -/
def minInt64 : Int := -9223372036854775808

/-- The constant `math.MaxInt64`. -/
def maxInt64 : Int := 9223372036854775807

/-- The value is an int64. -/
def isInt64 (x : Int) : Prop := minInt64 ≤ x ∧ x ≤ maxInt64

/-- The int64 that a 64-bit operation with exact result `x` produces (two's
complement wrap-around). -/
def wrapInt64 (x : Int) : Int :=
  (x + 9223372036854775808) % 18446744073709551616 - 9223372036854775808

/-- The negation `-d` of a `time.Duration`: int64 negation, which is the exact
`-d` except at `math.MinInt64`, where it wraps to `math.MinInt64` (on every
int64 this is `wrapInt64 (-d)`). -/
def negDuration (d : Int) : Int := if d = minInt64 then minInt64 else -d

/-- The length of the window that the cutoff `now.Add(-window)` really looks
back: `window`, except `2^63` for `window = math.MinInt64`. -/
def effectiveWindow (window : Int) : Int := -negDuration window

/-- The pruning loop of `Allow`:
`valid := []; for _, t := range requests { if t.After(cutoff) { valid = append(valid, t) } }`. -/
def pruneLoop (cutoff : Int) (requests : List Int) : List Int :=
  requests.foldl (fun valid t => if After t cutoff then valid ++ [t] else valid) []

/-- The counting loop of `GetStats`:
`count := 0; for _, t := range requests { if t.After(cutoff) { count++ } }`. -/
def countLoop (cutoff : Int) (requests : List Int) : Int :=
  requests.foldl (fun count t => if After t cutoff then count + 1 else count) 0

/-- The first critical section of `Allow`, under `l.mu.Lock()`: create the
entry of `userID` when the map has none.  The pointer `user` that the caller
keeps is the entry of `userID`; entries are never replaced or removed. -/
def resolveOrCreate (l : Limiter) (userID : String) : Limiter :=
  { l with users :=
      if (mapGet l.users userID).isNone then mapSet l.users userID [] else l.users }

/-- The second critical section of `Allow`, under `user.mu.Lock()`, with
`time.Now()` read as `now`: prune, compare with the quota, record. -/
def checkUnderUserLock (l : Limiter) (userID : String) (now : Int) : Bool × Limiter :=
  let requests := (mapGet l.users userID).getD []
  let cutoff := now + negDuration l.window
  let valid := pruneLoop cutoff requests
  if l.maxReqs ≤ (valid.length : Int) then
    (false, { l with users := mapSet l.users userID valid })
  else
    (true, { l with users := mapSet l.users userID (valid ++ [now]) })

/-- `Limiter.Allow(userID)` run at clock reading `now`: the returned flag and the
limiter afterwards. -/
def Allow (l : Limiter) (userID : String) (now : Int) : Bool × Limiter :=
  checkUnderUserLock (resolveOrCreate l userID) userID now

/-- `Limiter.GetStats(userID)` run at clock reading `now`: the pair
`(current, limit)` and the limiter afterwards (the function writes nothing). -/
def GetStats (l : Limiter) (userID : String) (now : Int) : (Int × Int) × Limiter :=
  match mapGet l.users userID with
  | none => ((0, l.maxReqs), l)
  | some requests =>
      let cutoff := now + negDuration l.window
      ((countLoop cutoff requests, l.maxReqs), l)

/-- The stored history of an identity, empty when the identity has no entry. -/
def histOf (l : Limiter) (userID : String) : List Int :=
  (mapGet l.users userID).getD []

/-- One call on the limiter. -/
inductive Op where
  | allow (userID : String) (now : Int)
  | getStats (userID : String) (now : Int)
  deriving DecidableEq, Repr

/-- The identity a call is about. -/
def Op.user : Op → String
  | .allow u _ => u
  | .getStats u _ => u

/-- The clock reading of a call. -/
def Op.time : Op → Int
  | .allow _ t => t
  | .getStats _ t => t

/-- What a call returned. -/
inductive Res where
  | allowed (ok : Bool)
  | stats (current : Int) (limit : Int)
  deriving DecidableEq, Repr

/-- Run one call. -/
def step (l : Limiter) : Op → Res × Limiter
  | .allow u t => (Res.allowed (Allow l u t).1, (Allow l u t).2)
  | .getStats u t =>
      (Res.stats (GetStats l u t).1.1 (GetStats l u t).1.2, (GetStats l u t).2)

/-- The limiter after a sequence of calls. -/
def exec (l : Limiter) : List Op → Limiter
  | [] => l
  | op :: ops => exec (step l op).2 ops

/-- The calls of a sequence, each paired with what it returned. -/
def trace (l : Limiter) : List Op → List (Op × Res)
  | [] => []
  | op :: ops => (op, (step l op).1) :: trace (step l op).2 ops

/-- The calls are made at non-decreasing clock readings. -/
def TimeOrdered (ops : List Op) : Prop :=
  (ops.map Op.time).Pairwise (· ≤ ·)

instance (ops : List Op) : Decidable (TimeOrdered ops) := by
  unfold TimeOrdered; infer_instance

/-- The timestamp is inside the window that ends at `now`: strictly after the
cutoff `now - window`. -/
def inWindow (window now : Int) (t : Int) : Bool := decide (now - window < t)

/-- The timestamp of an event when it is an `Allow(userID)` that returned
`true`. -/
def acceptedAt (userID : String) : Op × Res → Option Int
  | (.allow u ts, .allowed true) => if u = userID then some ts else none
  | _ => none

/-- The timestamps of the `Allow(userID)` calls of a trace that returned `true`,
in call order. -/
def acceptedTimes (userID : String) (tr : List (Op × Res)) : List Int :=
  tr.filterMap (acceptedAt userID)

/-- The timestamp lies in the half-open interval `(t - window, t]`. -/
def inInterval (window t : Int) (ts : Int) : Bool :=
  decide (t - window < ts) && decide (ts ≤ t)

/-- One atomic step of a goroutine that runs `Allow(userID)`: its critical
section under the registry lock, or its critical section under the user's lock,
in which it reads `time.Now()` as `now`. -/
inductive Section where
  | registry (goroutine : Nat)
  | user (goroutine : Nat) (now : Int)
  deriving DecidableEq, Repr

/-- The goroutine of a registry section. -/
def Section.registryOf : Section → Option Nat
  | .registry g => some g
  | .user _ _ => none

/-- The goroutine of a user section. -/
def Section.userOf : Section → Option Nat
  | .registry _ => none
  | .user g _ => some g

/-- The clock reading of a user section. -/
def Section.clock : Section → Option Int
  | .registry _ => none
  | .user _ now => some now

/-- The limiter after one section of an `Allow(userID)`. -/
def runSection (userID : String) (l : Limiter) : Section → Limiter
  | .registry _ => resolveOrCreate l userID
  | .user _ now => (checkUnderUserLock l userID now).2

/-- The limiter after a schedule of sections of concurrent `Allow(userID)`
calls. -/
def schedExec (userID : String) (l : Limiter) : List Section → Limiter
  | [] => l
  | sec :: rest => schedExec userID (runSection userID l sec) rest

/-- What the calls of a schedule return: for each user section, in schedule
order, the goroutine and the flag its `Allow` returns. -/
def schedResults (userID : String) (l : Limiter) : List Section → List (Nat × Bool)
  | [] => []
  | .registry g :: rest => schedResults userID (runSection userID l (.registry g)) rest
  | .user g now :: rest =>
      (g, (checkUnderUserLock l userID now).1)
        :: schedResults userID (runSection userID l (.user g now)) rest

/-- The number of registry sections of a schedule that create the `UserLimit`
of `userID` (they find `l.users[userID] == nil`). -/
def schedCreations (userID : String) (l : Limiter) : List Section → Nat
  | [] => 0
  | .registry g :: rest =>
      (if (mapGet l.users userID).isNone then 1 else 0)
        + schedCreations userID (runSection userID l (.registry g)) rest
  | .user g now :: rest => schedCreations userID (runSection userID l (.user g now)) rest

/-- Every user section comes after the registry section of its goroutine;
`done` lists the goroutines whose registry section has run. -/
def inProgramOrder : List Nat → List Section → Bool
  | _, [] => true
  | done, .registry g :: rest => inProgramOrder (g :: done) rest
  | done, .user g _ :: rest => decide (g ∈ done) && inProgramOrder done rest

/-- A schedule of `K` concurrent `Allow` calls, by goroutines `0, ..., K-1`: each
goroutine runs its registry section once and its user section once, in that
order; the sections of different goroutines interleave in any way. -/
def IsSchedule (K : Nat) (sched : List Section) : Prop :=
  (sched.filterMap Section.registryOf).Perm (List.range K) ∧
  (sched.filterMap Section.userOf).Perm (List.range K) ∧
  inProgramOrder [] sched = true

instance (K : Nat) (sched : List Section) : Decidable (IsSchedule K sched) := by
  unfold IsSchedule; infer_instance

/-- The clock readings of the user sections of a schedule, in schedule order. -/
def userClocks (sched : List Section) : List Int :=
  sched.filterMap Section.clock

/-- The specification's `CheckAndRecord(now)` on one identity's history, written
from its four steps: compute the cutoff, remove every entry with timestamp
`<= cutoff`, reject without recording when the remaining length is
`>= maxRequests`, otherwise append `now` and accept. -/
def CheckAndRecord (maxRequests window : Int) (history : List Int) (now : Int) :
    Bool × List Int :=
  let cutoff := now - window
  let kept := history.filter (fun t => !decide (t ≤ cutoff))
  if maxRequests ≤ (kept.length : Int) then (false, kept) else (true, kept ++ [now])

end RateLimiter

/-!
Retry loop (`task_2/main.go`)

`callAPI` sleeps and draws random numbers, so it is a parameter: `callAPI url k`
is what the `k`-th call made by `fetch` returns (`k = 1, 2, ...`).  An `error`
value is its message, `nil` is `none`.  Printing and sleeping are left out.
The loop counter `i` is a Go `int`, taken as 64 bits wide, and `i++` wraps
around at `math.MaxInt64`.
-/

namespace Fetch

/-- The `Data` struct. -/
structure Data where
  Message : String
  Timestamp : String
  Value : Int
  deriving DecidableEq, Repr

/-- The `Response` struct. -/
structure Response where
  Success : Bool
  URL : String
  Data : Data
  deriving DecidableEq, Repr

/-- What one `callAPI(url)` returns: `(resp, nil)` or `(nil, err)`, the error
given by its message `err.Error()`. -/
inductive Outcome where
  | success (resp : Response)
  | failure (msg : String)
  deriving DecidableEq, Repr

/-- The call failed (`e != nil`). -/
def Outcome.isFailure : Outcome → Bool
  | .success _ => false
  | .failure _ => true

/-- How the `for` loop of `fetch` ends: by `return resp, nil` inside the body,
or by running past `retries` with the variable `err` as it then is. -/
inductive LoopExit where
  | returned (resp : Response)
  | fellThrough (err : Option String)
  deriving DecidableEq, Repr

/-- How `fetch` ends: `return resp, nil`, `return nil, err` with the message of
`err`, or the run-time panic of calling `Error()` on a nil `error`.
`stillLooping` is not an end: it says that the loop has not ended after the
number of iterations looked at. -/
inductive FetchResult where
  | ok (resp : Response)
  | error (msg : String)
  | nilDereference
  | stillLooping
  deriving DecidableEq, Repr

/-- The loop `for i := 1; i <= retries; i++ { ... }` from the test of its
condition with counter `i`, before the call number `attempt` of `callAPI`, with
the variable `err` as given, followed for at most `fuel` tests of the
condition.  The counter is a Go `int`, taken as 64 bits wide: `i++` wraps
around.  Returns how the loop ends (`none` when it has not ended within `fuel`
tests) and the numbers of the calls of `callAPI` made, in order. -/
def fetchLoop (callAPI : String → Nat → Outcome) (url : String) (retries : Int) :
    Nat → Int → Nat → Option String → Option LoopExit × List Nat
  | 0, _, _, _ => (none, [])
  | fuel + 1, i, attempt, err =>
      if i ≤ retries then
        match callAPI url attempt with
        | .success resp => (some (LoopExit.returned resp), [attempt])
        | .failure e =>
            ((fetchLoop callAPI url retries fuel (RateLimiter.wrapInt64 (i + 1))
                (attempt + 1) (some e)).1,
              attempt :: (fetchLoop callAPI url retries fuel (RateLimiter.wrapInt64 (i + 1))
                (attempt + 1) (some e)).2)
      else (some (LoopExit.fellThrough err), [])

/-- The message built by `fmt.Errorf("gave up after %d tries: %s", retries, msg)`. -/
def gaveUp (retries : Int) (msg : String) : String :=
  "gave up after " ++ toString retries ++ " tries: " ++ msg

/-- The statements of `fetch` after the loop, given how the loop ended. -/
def afterLoop (retries : Int) : Option LoopExit × List Nat → FetchResult × List Nat
  | (some (LoopExit.returned resp), calls) => (FetchResult.ok resp, calls)
  | (some (LoopExit.fellThrough (some e)), calls) =>
      (FetchResult.error (gaveUp retries e), calls)
  | (some (LoopExit.fellThrough none), calls) => (FetchResult.nilDereference, calls)
  | (none, calls) => (FetchResult.stillLooping, calls)

/-- `fetch(url, retries)`: its result and the numbers of the calls of `callAPI`
it made.  The loop starts with `i := 1` and `err == nil` and is followed for
`retries + 1` tests of its condition: that is where it ends when the counter
does not wrap, and otherwise the result is `stillLooping`. -/
def fetch (callAPI : String → Nat → Outcome) (url : String) (retries : Int) :
    FetchResult × List Nat :=
  afterLoop retries (fetchLoop callAPI url retries (retries.toNat + 1) 1 1 none)

/-- The loop when its counter does not wrap: `remaining` iterations from the
counter value `i`.  It is what `fetchLoop` computes for `retries` below
`math.MaxInt64` (`fetchLoop_eq_boundedLoop`). -/
def boundedLoop (callAPI : String → Nat → Outcome) (url : String) :
    Nat → Nat → Option String → LoopExit × List Nat
  | 0, _, err => (LoopExit.fellThrough err, [])
  | remaining + 1, i, _ =>
      match callAPI url i with
      | .success resp => (LoopExit.returned resp, [i])
      | .failure e =>
          ((boundedLoop callAPI url remaining (i + 1) (some e)).1,
            i :: (boundedLoop callAPI url remaining (i + 1) (some e)).2)

end Fetch

/-!
Text statistics (`task_1/main.go`)

A Go `string` is a Lean `String` (valid UTF-8 only) and `len(s)` is its byte
size.  `strings.Fields` and `strings.ToLower` are library functions and are
parameters of `AnalyzeText`; `asciiFields` and `asciiToLower` are what they do on
ASCII text and serve to evaluate examples.  `map[string]int` is an association
list; reading an absent key gives 0.  A `float64` is the rational number it
denotes, and `round64 x` stands for the `float64` that an operation with exact
result `x` produces, so that every floating-point operation is `round64` of its
exact result.
-/

namespace TextStats

/-- The `TextAnalysis` struct. -/
structure TextAnalysis where
  WordCount : Int
  AverageWordLength : ℚ
  LongestWords : List String
  WordFrequency : List (String × Int)
  deriving DecidableEq, Repr

/-- Map read `m[k]` of a `map[string]int`: 0 for an absent key. -/
def freqGet : List (String × Int) → String → Int
  | [], _ => 0
  | (k', v) :: rest, k => if k' = k then v else freqGet rest k

/-- Map store `m[k] = v` of a `map[string]int`. -/
def freqSet : List (String × Int) → String → Int → List (String × Int)
  | [], k, v => [(k, v)]
  | (k', v') :: rest, k, v =>
      if k' = k then (k, v) :: rest else (k', v') :: freqSet rest k v

/-- The duplicate search
`isDuplicate := false; for _, existingWord := range LongestWords { if existingWord == lowerWord { isDuplicate = true; break } }`. -/
def isDuplicate : List String → String → Bool
  | [], _ => false
  | existingWord :: rest, lowerWord =>
      if existingWord = lowerWord then true else isDuplicate rest lowerWord

/-- The variables that the word loop of `AnalyzeText` updates. -/
structure LoopState where
  WordFrequency : List (String × Int)
  totalLetters : Int
  maxWordLength : Int
  LongestWords : List String
  deriving DecidableEq, Repr

/-- The state before the loop: empty map, `totalLetters := 0`,
`maxWordLength := 0`, `LongestWords: []string{}`. -/
def initialState : LoopState :=
  { WordFrequency := [], totalLetters := 0, maxWordLength := 0, LongestWords := [] }

/-- `len(s)`: the number of bytes of the string. -/
def byteLen (s : String) : Int := Int.ofNat s.utf8ByteSize

/-- One iteration of `for _, word := range words`. -/
def wordStep (ToLower : String → String) (st : LoopState) (word : String) : LoopState :=
  let lowerWord := ToLower word
  let freq := freqSet st.WordFrequency lowerWord (freqGet st.WordFrequency lowerWord + 1)
  let wordLength := byteLen lowerWord
  let total := st.totalLetters + wordLength
  if st.maxWordLength < wordLength then
    { WordFrequency := freq, totalLetters := total, maxWordLength := wordLength,
      LongestWords := [lowerWord] }
  else if wordLength = st.maxWordLength then
    if isDuplicate st.LongestWords lowerWord then
      { WordFrequency := freq, totalLetters := total, maxWordLength := st.maxWordLength,
        LongestWords := st.LongestWords }
    else
      { WordFrequency := freq, totalLetters := total, maxWordLength := st.maxWordLength,
        LongestWords := st.LongestWords ++ [lowerWord] }
  else
    { WordFrequency := freq, totalLetters := total, maxWordLength := st.maxWordLength,
      LongestWords := st.LongestWords }

/-- The conversion `int(x)` of a `float64`: truncation toward zero. -/
def truncate (x : ℚ) : Int := if 0 ≤ x then ⌊x⌋ else ⌈x⌉

/-- The two assignments to `AverageWordLength`:
`float64(totalLetters) / float64(WordCount)` and then
`float64(int(AverageWordLength*100)) / 100`. -/
def averageWordLength (round64 : ℚ → ℚ) (totalLetters WordCount : Int) : ℚ :=
  let average := round64 (round64 totalLetters / round64 WordCount)
  round64 (round64 (truncate (round64 (average * 100))) / 100)

/-- `AnalyzeText(text)`. -/
def AnalyzeText (Fields : String → List String) (ToLower : String → String)
    (round64 : ℚ → ℚ) (text : String) : TextAnalysis :=
  let words := Fields text
  if words.length = 0 then
    { WordCount := 0, AverageWordLength := 0, LongestWords := [], WordFrequency := [] }
  else
    let st := words.foldl (wordStep ToLower) initialState
    { WordCount := Int.ofNat words.length,
      AverageWordLength := averageWordLength round64 st.totalLetters (Int.ofNat words.length),
      LongestWords := st.LongestWords,
      WordFrequency := st.WordFrequency }

/-- The splitting loop of `strings.Fields` on ASCII text: `current` is the word
being read. -/
def asciiFieldsLoop : List Char → List Char → List String
  | [], current => if current = [] then [] else [String.mk current]
  | c :: rest, current =>
      if c = ' ' ∨ c = '\t' ∨ c = '\n' ∨ c = '\r' ∨ c.toNat = 11 ∨ c.toNat = 12 then
        if current = [] then asciiFieldsLoop rest []
        else String.mk current :: asciiFieldsLoop rest []
      else asciiFieldsLoop rest (current ++ [c])

/-- What `strings.Fields` does on ASCII text: the maximal runs of characters
other than space, tab, newline, vertical tab, form feed and carriage return. -/
def asciiFields (s : String) : List String := asciiFieldsLoop s.data []

/-- What `strings.ToLower` does on ASCII text: `A`..`Z` become `a`..`z`. -/
def asciiToLower (s : String) : String := String.mk (s.data.map Char.toLower)

/-- The input of `main`. -/
def demoText : String := "The quick brown fox jumps over the lazy dog the fox"

/-- The lower-cased words of the text, in order. -/
def lowerWords (Fields : String → List String) (ToLower : String → String)
    (text : String) : List String :=
  (Fields text).map ToLower

/-- The largest byte length among the words, 0 when there is none. -/
def maxLength : List String → Int
  | [] => 0
  | w :: ws => max (byteLen w) (maxLength ws)

/-- The distinct elements of a list, each at the place of its first
occurrence. -/
def firstOccurrences : List String → List String
  | [] => []
  | w :: ws => w :: (firstOccurrences ws).filter (fun x => decide (x ≠ w))

/-- The mean rounded to 2 decimal places (half away from zero), in exact
arithmetic: the rational with two decimals nearest to `total / count`. -/
def roundedMean (total count : Int) : ℚ :=
  (round ((total : ℚ) / count * 100) : ℚ) / 100

end TextStats

namespace RateLimiter

/-! ## The loops and the map -/

theorem pruneLoop_foldl (cutoff : Int) (requests acc : List Int) :
    requests.foldl (fun valid t => if After t cutoff then valid ++ [t] else valid) acc
      = acc ++ requests.filter (fun t => After t cutoff) := by
  induction requests generalizing acc with
  | nil => simp
  | cons t rest ih =>
    simp only [List.foldl_cons, ih, List.filter_cons]
    by_cases h : After t cutoff = true <;> simp [h]

theorem pruneLoop_eq_filter (window now : Int) (requests : List Int) :
    pruneLoop (now - window) requests = requests.filter (inWindow window now) := by
  have h := pruneLoop_foldl (now - window) requests []
  simpa [pruneLoop, inWindow, After] using h

theorem countLoop_foldl (cutoff : Int) (requests : List Int) (acc : Int) :
    requests.foldl (fun count t => if After t cutoff then count + 1 else count) acc
      = acc + (requests.countP (fun t => After t cutoff) : Int) := by
  induction requests generalizing acc with
  | nil => simp
  | cons t rest ih =>
    simp only [List.foldl_cons, ih, List.countP_cons]
    by_cases h : After t cutoff = true
    · simp [h]; ring
    · simp [h]

theorem countLoop_eq_countP (window now : Int) (requests : List Int) :
    countLoop (now - window) requests = (requests.countP (inWindow window now) : Int) := by
  have h := countLoop_foldl (now - window) requests 0
  simpa [countLoop, inWindow, After] using h

theorem mapGet_mapSet_same (m : Users) (k : String) (v : List Int) :
    mapGet (mapSet m k v) k = some v := by
  induction m with
  | nil => simp [mapSet, mapGet]
  | cons p rest ih =>
    obtain ⟨k', v'⟩ := p
    by_cases h : k' = k <;> simp [mapSet, mapGet, h, ih]

theorem mapGet_mapSet_other (m : Users) (k k' : String) (v : List Int) (h : k' ≠ k) :
    mapGet (mapSet m k v) k' = mapGet m k' := by
  induction m with
  | nil => simp [mapSet, mapGet, Ne.symm h]
  | cons p rest ih =>
    obtain ⟨k₀, v₀⟩ := p
    by_cases h₀ : k₀ = k
    · subst h₀
      simp [mapSet, mapGet, Ne.symm h]
    · by_cases h₁ : k₀ = k'
      · subst h₁
        simp [mapSet, mapGet, h₀]
      · simp [mapSet, mapGet, h₀, h₁, ih]

theorem mapGet_isSome_iff_mem_keys (m : Users) (k : String) :
    (mapGet m k).isSome = true ↔ k ∈ mapKeys m := by
  induction m with
  | nil => simp [mapGet, mapKeys]
  | cons p rest ih =>
    obtain ⟨k', v'⟩ := p
    by_cases h : k' = k
    · simp [mapGet, mapKeys, h]
    · have h' : ¬ k = k' := fun e => h e.symm
      simpa [mapGet, mapKeys, h, h'] using ih

/-- Storing at a key that is present leaves the key list as it is. -/
theorem mapKeys_mapSet_present (m : Users) (k : String) (v : List Int)
    (h : k ∈ mapKeys m) : mapKeys (mapSet m k v) = mapKeys m := by
  induction m with
  | nil => simp [mapKeys] at h
  | cons p rest ih =>
    obtain ⟨k', v'⟩ := p
    by_cases hk : k' = k
    · simp [mapSet, mapKeys, hk]
    · have h' : k ∈ mapKeys rest := by
        have : k = k' ∨ k ∈ mapKeys rest := by simpa [mapKeys] using h
        rcases this with e | e
        · exact absurd e.symm hk
        · exact e
      have := ih h'
      simp only [mapKeys] at this ⊢
      simp [mapSet, hk, this]

/-- Storing at a key that is absent adds that key at the end. -/
theorem mapKeys_mapSet_absent (m : Users) (k : String) (v : List Int)
    (h : k ∉ mapKeys m) : mapKeys (mapSet m k v) = mapKeys m ++ [k] := by
  induction m with
  | nil => simp [mapKeys, mapSet]
  | cons p rest ih =>
    obtain ⟨k', v'⟩ := p
    have hk : ¬ k' = k := by
      intro e; apply h; simp [mapKeys, e]
    have h' : k ∉ mapKeys rest := by
      intro e; apply h; simp only [mapKeys] at e ⊢; simp [e]
    have := ih h'
    simp only [mapKeys] at this ⊢
    simp [mapSet, hk, this]

/-! ## `Allow` and `GetStats` in terms of the stored history -/

theorem negDuration_eq_wrapInt64 (d : Int) (h : isInt64 d) :
    negDuration d = wrapInt64 (-d) := by
  unfold negDuration wrapInt64
  unfold isInt64 minInt64 maxInt64 at h
  unfold minInt64
  split_ifs with hd
  · subst hd; decide
  · omega

theorem negDuration_of_ne (window : Int) (h : window ≠ minInt64) :
    negDuration window = -window := by
  simp [negDuration, h]

theorem effectiveWindow_of_ne (window : Int) (h : window ≠ minInt64) :
    effectiveWindow window = window := by
  simp [effectiveWindow, negDuration, h]

theorem effectiveWindow_of_pos (window : Int) (h : 0 < window) :
    effectiveWindow window = window := by
  apply effectiveWindow_of_ne
  unfold minInt64; omega

theorem effectiveWindow_minInt64 : effectiveWindow minInt64 = 9223372036854775808 := by
  decide

/-- The window looked back is never shorter than the configured one. -/
theorem le_effectiveWindow (window : Int) : window ≤ effectiveWindow window := by
  unfold effectiveWindow negDuration minInt64
  split_ifs with h
  · omega
  · omega

theorem cutoff_eq (window now : Int) :
    now + negDuration window = now - effectiveWindow window := by
  unfold effectiveWindow; omega

/-- After the resolve-or-create step the entry of `userID` holds its history. -/
theorem resolve_get (l : Limiter) (userID : String) :
    mapGet (resolveOrCreate l userID).users userID = some (histOf l userID) := by
  unfold resolveOrCreate
  cases h : mapGet l.users userID with
  | none => simp [histOf, h, mapGet_mapSet_same]
  | some v => simp [histOf, h]

theorem resolve_get_other (l : Limiter) (userID other : String) (hne : other ≠ userID) :
    mapGet (resolveOrCreate l userID).users other = mapGet l.users other := by
  unfold resolveOrCreate
  cases h : mapGet l.users userID with
  | none => simp [mapGet_mapSet_other _ _ _ _ hne]
  | some v => simp

/-- The registry section does nothing when the entry is there. -/
theorem resolveOrCreate_present (l : Limiter) (userID : String)
    (h : (mapGet l.users userID).isSome = true) : resolveOrCreate l userID = l := by
  unfold resolveOrCreate
  cases hg : mapGet l.users userID with
  | none => simp [hg] at h
  | some v => simp

@[simp] theorem resolveOrCreate_maxReqs (l : Limiter) (userID : String) :
    (resolveOrCreate l userID).maxReqs = l.maxReqs := rfl

@[simp] theorem resolveOrCreate_window (l : Limiter) (userID : String) :
    (resolveOrCreate l userID).window = l.window := rfl

@[simp] theorem check_maxReqs (l : Limiter) (userID : String) (now : Int) :
    (checkUnderUserLock l userID now).2.maxReqs = l.maxReqs := by
  unfold checkUnderUserLock; dsimp only; split_ifs <;> rfl

@[simp] theorem check_window (l : Limiter) (userID : String) (now : Int) :
    (checkUnderUserLock l userID now).2.window = l.window := by
  unfold checkUnderUserLock; dsimp only; split_ifs <;> rfl

theorem check_fst (l : Limiter) (userID : String) (now : Int) :
    (checkUnderUserLock l userID now).1 = decide
      ((((histOf l userID).filter (inWindow (effectiveWindow l.window) now)).length : Int)
        < l.maxReqs) := by
  unfold checkUnderUserLock
  simp only [cutoff_eq, pruneLoop_eq_filter]
  split
  · next h => simpa [histOf] using h
  · next h => simpa [histOf] using h

theorem check_get (l : Limiter) (userID : String) (now : Int) :
    mapGet (checkUnderUserLock l userID now).2.users userID = some
      (if (checkUnderUserLock l userID now).1 = true
       then (histOf l userID).filter (inWindow (effectiveWindow l.window) now) ++ [now]
       else (histOf l userID).filter (inWindow (effectiveWindow l.window) now)) := by
  unfold checkUnderUserLock
  simp only [cutoff_eq, pruneLoop_eq_filter]
  split <;> simp [mapGet_mapSet_same, histOf]

theorem check_get_other (l : Limiter) (userID other : String) (now : Int)
    (hne : other ≠ userID) :
    mapGet (checkUnderUserLock l userID now).2.users other = mapGet l.users other := by
  unfold checkUnderUserLock
  dsimp only
  split_ifs <;> simp [mapGet_mapSet_other _ _ _ _ hne]

theorem histOf_resolveOrCreate (l : Limiter) (userID other : String) :
    histOf (resolveOrCreate l userID) other = histOf l other := by
  by_cases h : other = userID
  · subst h; simp [histOf, resolve_get]
  · simp [histOf, resolve_get_other _ _ _ h]

@[simp] theorem Allow_maxReqs (l : Limiter) (userID : String) (now : Int) :
    (Allow l userID now).2.maxReqs = l.maxReqs := by
  simp [Allow]

@[simp] theorem Allow_window (l : Limiter) (userID : String) (now : Int) :
    (Allow l userID now).2.window = l.window := by
  simp [Allow]

theorem Allow_fst (l : Limiter) (userID : String) (now : Int) :
    (Allow l userID now).1 = decide
      ((((histOf l userID).filter (inWindow (effectiveWindow l.window) now)).length : Int)
        < l.maxReqs) := by
  unfold Allow
  rw [check_fst, histOf_resolveOrCreate]
  rfl

theorem Allow_get (l : Limiter) (userID : String) (now : Int) :
    mapGet (Allow l userID now).2.users userID = some
      (if (Allow l userID now).1 = true
       then (histOf l userID).filter (inWindow (effectiveWindow l.window) now) ++ [now]
       else (histOf l userID).filter (inWindow (effectiveWindow l.window) now)) := by
  unfold Allow
  rw [check_get, histOf_resolveOrCreate]
  rfl

theorem Allow_hist (l : Limiter) (userID : String) (now : Int) :
    histOf (Allow l userID now).2 userID =
      if (Allow l userID now).1 = true
      then (histOf l userID).filter (inWindow (effectiveWindow l.window) now) ++ [now]
      else (histOf l userID).filter (inWindow (effectiveWindow l.window) now) := by
  simp [histOf, Allow_get]

theorem Allow_get_other (l : Limiter) (userID other : String) (now : Int)
    (hne : other ≠ userID) :
    mapGet (Allow l userID now).2.users other = mapGet l.users other := by
  unfold Allow
  rw [check_get_other _ _ _ _ hne, resolve_get_other _ _ _ hne]

theorem Allow_hist_other (l : Limiter) (userID other : String) (now : Int)
    (hne : other ≠ userID) :
    histOf (Allow l userID now).2 other = histOf l other := by
  simp [histOf, Allow_get_other _ _ _ _ hne]

theorem GetStats_eq (l : Limiter) (userID : String) (now : Int) :
    GetStats l userID now =
      ((Int.ofNat ((histOf l userID).countP (inWindow (effectiveWindow l.window) now)),
        l.maxReqs), l) := by
  unfold GetStats histOf
  cases h : mapGet l.users userID with
  | none => simp
  | some v => simp [cutoff_eq, countLoop_eq_countP]

theorem GetStats_state (l : Limiter) (userID : String) (now : Int) :
    (GetStats l userID now).2 = l := by
  rw [GetStats_eq]

/-- Counting the window at `now2` is blind to a pruning made at an earlier `now`. -/
theorem countP_filter_earlier (window now now2 : Int) (hle : now ≤ now2) (h : List Int) :
    (h.filter (inWindow window now)).countP (inWindow window now2)
      = h.countP (inWindow window now2) := by
  rw [List.countP_filter]
  apply List.countP_congr
  intro x _
  simp only [inWindow, Bool.and_eq_true, decide_eq_true_eq]
  constructor
  · exact fun hx => hx.1
  · exact fun hx => ⟨hx, by omega⟩

/-- An identity that no `Allow` of a run from a new limiter was made for has no
registry entry at the end of the run. -/
theorem absent_of_never_allowed (l : Limiter) (ops : List Op) (userID : String)
    (hnew : mapGet l.users userID = none)
    (hnever : ∀ now, Op.allow userID now ∉ ops) :
    mapGet (exec l ops).users userID = none := by
  induction ops generalizing l with
  | nil => exact hnew
  | cons op ops ih =>
    apply ih
    · cases op with
      | getStats u t => simpa [step, GetStats_state] using hnew
      | allow u t =>
        have hne : userID ≠ u := by
          intro e; subst e
          exact hnever t (List.mem_cons_self _ _)
        simp only [step]
        rw [Allow_get_other l u userID t hne]
        exact hnew
    · intro now hmem
      exact hnever now (List.mem_cons_of_mem _ hmem)

/-! ## Single-call properties -/

/-- `Allow` as the specification's `CheckAndRecord`, with the window that the
cutoff really looks back.  With `h` the history before the call (empty for a
new identity) and `h'` the entries of `h` strictly after the cutoff
`now.Add(-window)`, in order: `Allow` returns `true` exactly when
`len h' < maxReqs`; on `true` the stored history becomes `h' ++ [now]`, on
`false` it becomes `h'`; and both the flag and the stored history are the ones
`CheckAndRecord` computes for the window `effectiveWindow l.window`, which is
`l.window` unless `l.window = math.MinInt64`. -/
theorem Allow_implements_CheckAndRecord (l : Limiter) (userID : String) (now : Int) :
    ((Allow l userID now).1 = true ↔
        ((((histOf l userID).filter
            (fun t => decide (now - effectiveWindow l.window < t))).length : Int)
          < l.maxReqs)) ∧
    ((Allow l userID now).1 = true →
        mapGet (Allow l userID now).2.users userID
          = some ((histOf l userID).filter
              (fun t => decide (now - effectiveWindow l.window < t)) ++ [now])) ∧
    ((Allow l userID now).1 = false →
        mapGet (Allow l userID now).2.users userID
          = some ((histOf l userID).filter
              (fun t => decide (now - effectiveWindow l.window < t)))) ∧
    (Allow l userID now).1
      = (CheckAndRecord l.maxReqs (effectiveWindow l.window) (histOf l userID) now).1 ∧
    mapGet (Allow l userID now).2.users userID
      = some (CheckAndRecord l.maxReqs (effectiveWindow l.window) (histOf l userID) now).2 := by
  have hf : (fun t => decide (now - effectiveWindow l.window < t))
      = inWindow (effectiveWindow l.window) now := rfl
  have hg : (fun t => !decide (t ≤ now - effectiveWindow l.window))
      = inWindow (effectiveWindow l.window) now := by
    funext t
    by_cases h : t ≤ now - effectiveWindow l.window
    · simp [inWindow, h, not_lt.mpr h]
    · simp [inWindow, h, not_le.mp h]
  rw [hf]
  refine ⟨?_, ?_, ?_, ?_, ?_⟩
  · rw [Allow_fst]; simp
  · intro h; rw [Allow_get]; simp [h]
  · intro h; rw [Allow_get]; simp [h]
  · rw [Allow_fst]; unfold CheckAndRecord; simp only [hg]
    split_ifs with h
    · simpa using h
    · simpa using h
  · rw [Allow_get, Allow_fst]; unfold CheckAndRecord; simp only [hg]
    split_ifs with h1 h2 h2
    · exact absurd (by simpa using h1) (not_lt.mpr h2)
    · rfl
    · rfl
    · exact absurd (by simpa using h1) h2

/-- For every window other than `math.MinInt64`, `Allow` is `CheckAndRecord` with
the cutoff `now - window`. -/
theorem Allow_implements_CheckAndRecord_of_ne (l : Limiter) (userID : String) (now : Int)
    (hwindow : l.window ≠ minInt64) :
    ((Allow l userID now).1 = true ↔
        ((((histOf l userID).filter (fun t => decide (now - l.window < t))).length : Int)
          < l.maxReqs)) ∧
    (Allow l userID now).1 = (CheckAndRecord l.maxReqs l.window (histOf l userID) now).1 ∧
    mapGet (Allow l userID now).2.users userID
      = some (CheckAndRecord l.maxReqs l.window (histOf l userID) now).2 := by
  have h := Allow_implements_CheckAndRecord l userID now
  rw [effectiveWindow_of_ne _ hwindow] at h
  exact ⟨h.1, h.2.2.2.1, h.2.2.2.2⟩

/-- C2 fails in the code at `window = math.MinInt64`.  From
`NewLimiter(1, math.MinInt64)`, after `Allow("u1")` at 0 the history is `[0]`;
at `now = 5` no entry is strictly after `now - window`, so `CheckAndRecord`
accepts and stores `[5]`, but the negation `-l.window` wraps, the cutoff is
`5 - 2^63`, the entry is kept and `Allow` returns `false` with `[0]` stored. -/
theorem Allow_minInt64_window_is_not_CheckAndRecord :
    histOf (exec (NewLimiter 1 minInt64) [Op.allow "u1" 0]) "u1" = [0] ∧
    ([(0 : Int)].filter (fun t => decide (5 - minInt64 < t))).length = 0 ∧
    CheckAndRecord 1 minInt64 [0] 5 = (true, [5]) ∧
    (Allow (exec (NewLimiter 1 minInt64) [Op.allow "u1" 0]) "u1" 5).1 = false ∧
    mapGet (Allow (exec (NewLimiter 1 minInt64) [Op.allow "u1" 0]) "u1" 5).2.users "u1"
      = some [0] := by
  decide

/-- `GetStats` is a pure read.  For an identity with an entry it returns
`(c, maxReqs)` with `c` the number of stored timestamps strictly after the
cutoff `now.Add(-window)`, it returns the limiter unchanged, and so every later
sequence of calls returns what it would have returned without the `GetStats`
call. -/
theorem GetStats_pure_read (l : Limiter) (userID : String) (now : Int)
    (requests : List Int) (hentry : mapGet l.users userID = some requests) :
    (GetStats l userID now).1
      = (Int.ofNat (requests.countP (fun t => decide (now - effectiveWindow l.window < t))),
          l.maxReqs) ∧
    (GetStats l userID now).2 = l ∧
    (∀ userID2 now2, Allow (GetStats l userID now).2 userID2 now2 = Allow l userID2 now2) ∧
    (∀ userID2 now2,
      GetStats (GetStats l userID now).2 userID2 now2 = GetStats l userID2 now2) ∧
    (∀ ops, trace (GetStats l userID now).2 ops = trace l ops) := by
  have hh : histOf l userID = requests := by simp [histOf, hentry]
  have hs := GetStats_state l userID now
  refine ⟨?_, hs, ?_, ?_, ?_⟩
  · rw [GetStats_eq, hh]; rfl
  · intro u2 n2; rw [hs]
  · intro u2 n2; rw [hs]
  · intro ops; rw [hs]

/-- For every window other than `math.MinInt64` the count that `GetStats` returns
is the number of stored timestamps strictly after `now - window`. -/
theorem GetStats_count_of_ne (l : Limiter) (userID : String) (now : Int)
    (requests : List Int) (hentry : mapGet l.users userID = some requests)
    (hwindow : l.window ≠ minInt64) :
    (GetStats l userID now).1
      = (Int.ofNat (requests.countP (fun t => decide (now - l.window < t))), l.maxReqs) := by
  have h := (GetStats_pure_read l userID now requests hentry).1
  rw [effectiveWindow_of_ne _ hwindow] at h
  exact h

/-- C3 fails in the code at `window = math.MinInt64`.  From
`NewLimiter(1, math.MinInt64)`, after `Allow("u1")` at 0 the history is `[0]`;
at `now = 5` no entry is strictly after `now - window`, but the negation
`-l.window` wraps, the cutoff is `5 - 2^63`, and `GetStats` returns `(1, 1)`,
not `(0, 1)`.  The limiter is unchanged by the call. -/
theorem GetStats_minInt64_window_counts_everything :
    mapGet (exec (NewLimiter 1 minInt64) [Op.allow "u1" 0]).users "u1" = some [0] ∧
    [(0 : Int)].countP (fun t => decide (5 - minInt64 < t)) = 0 ∧
    (GetStats (exec (NewLimiter 1 minInt64) [Op.allow "u1" 0]) "u1" 5).1 = (1, 1) ∧
    (GetStats (exec (NewLimiter 1 minInt64) [Op.allow "u1" 0]) "u1" 5).2
      = exec (NewLimiter 1 minInt64) [Op.allow "u1" 0] := by
  decide

/-- C4: `GetStats` for an identity without a registry entry (one never passed to
`Allow`) returns `(0, maxReqs)` and creates no entry: the keys of the `users`
map, and the whole map, are the same after the call, and the identity is still
absent. -/
theorem GetStats_unknown_identity (l : Limiter) (userID : String) (now : Int)
    (hnew : mapGet l.users userID = none) :
    (GetStats l userID now).1 = (0, l.maxReqs) ∧
    mapKeys (GetStats l userID now).2.users = mapKeys l.users ∧
    mapGet (GetStats l userID now).2.users userID = none ∧
    (GetStats l userID now).2 = l := by
  have hs := GetStats_state l userID now
  refine ⟨?_, by rw [hs], by rw [hs]; exact hnew, hs⟩
  rw [GetStats_eq]
  simp [histOf, hnew]

theorem GetStats_unknown_identity_witness :
    mapGet (Limiter.mk [("u1", [0, 50, 70])] 5 60).users "u2" = none ∧
    (GetStats ⟨[("u1", [0, 50, 70])], 5, 60⟩ "u2" 100).1 = (0, 5) ∧
    mapKeys (GetStats ⟨[("u1", [0, 50, 70])], 5, 60⟩ "u2" 100).2.users = ["u1"] := by
  have h := GetStats_unknown_identity ⟨[("u1", [0, 50, 70])], 5, 60⟩ "u2" 100 (by decide)
  exact ⟨by decide, h.1, h.2.1.trans (by decide)⟩

/-- C5: with `window > 0`, in every limiter state (so in every reachable one, at
every `now`): if `GetStats` at `now` returns `(c, limit)` and the `Allow` that
follows at the same `now` returns `true`, then `GetStats` at the same `now`
right afterwards returns `(c + 1, limit)`. -/
theorem GetStats_after_accepted_Allow (l : Limiter) (userID : String) (now : Int)
    (hwindow : 0 < l.window)
    (hok : (Allow (GetStats l userID now).2 userID now).1 = true) :
    (GetStats (Allow (GetStats l userID now).2 userID now).2 userID now).1
      = ((GetStats l userID now).1.1 + 1, (GetStats l userID now).1.2) := by
  have hw := effectiveWindow_of_pos l.window hwindow
  rw [GetStats_state] at hok ⊢
  rw [GetStats_eq, GetStats_eq, Allow_hist]
  have hnow : inWindow l.window now now = true := by
    simp only [inWindow, decide_eq_true_eq]; omega
  simp only [hok, if_true, Allow_window, Allow_maxReqs, hw, List.countP_append,
    List.countP_cons, List.countP_nil, hnow]
  rw [countP_filter_earlier l.window now now le_rfl]
  simp

theorem GetStats_after_accepted_Allow_witness :
    (0 : Int) < (Limiter.mk [("u1", [0, 50, 70])] 5 60).window ∧
    (Allow (GetStats ⟨[("u1", [0, 50, 70])], 5, 60⟩ "u1" 100).2 "u1" 100).1 = true ∧
    (GetStats ⟨[("u1", [0, 50, 70])], 5, 60⟩ "u1" 100).1 = (2, 5) ∧
    (GetStats (Allow (GetStats ⟨[("u1", [0, 50, 70])], 5, 60⟩ "u1" 100).2 "u1" 100).2
      "u1" 100).1 = (3, 5) := by
  have h := GetStats_after_accepted_Allow ⟨[("u1", [0, 50, 70])], 5, 60⟩ "u1" 100
    (by decide) (by decide)
  exact ⟨by decide, by decide, by decide, h.trans (by decide)⟩

/-- C6: a rejected `Allow` never increases `current`.  If `Allow(userID)` at
`now` returns `false` then, at every `now2 >= now`, `GetStats(userID)` after the
call returns exactly what it would have returned without the call; the stored
history after the call is the old history pruned at the cutoff
`now.Add(-window)` (which is `now - window` unless `window` is
`math.MinInt64`), a sublist of the old one, so `now` has not been added to
it. -/
theorem rejected_Allow_keeps_current (l : Limiter) (userID : String) (now now2 : Int)
    (hle : now ≤ now2) (hrej : (Allow l userID now).1 = false) :
    (GetStats (Allow l userID now).2 userID now2).1 = (GetStats l userID now2).1 ∧
    (GetStats (Allow l userID now).2 userID now2).1.1 ≤ (GetStats l userID now2).1.1 ∧
    histOf (Allow l userID now).2 userID
      = (histOf l userID).filter (fun t => decide (now + negDuration l.window < t)) ∧
    (histOf (Allow l userID now).2 userID).Sublist (histOf l userID) ∧
    (histOf (Allow l userID now).2 userID).count now ≤ (histOf l userID).count now ∧
    (l.window ≠ minInt64 →
      histOf (Allow l userID now).2 userID
        = (histOf l userID).filter (fun t => decide (now - l.window < t))) := by
  have hh : histOf (Allow l userID now).2 userID
      = (histOf l userID).filter (inWindow (effectiveWindow l.window) now) := by
    rw [Allow_hist]; simp [hrej]
  have hcut : (fun t => decide (now + negDuration l.window < t))
      = inWindow (effectiveWindow l.window) now := by
    funext t; simp only [inWindow, cutoff_eq]
  have hsub : (histOf (Allow l userID now).2 userID).Sublist (histOf l userID) := by
    rw [hh]; exact List.filter_sublist _
  have heq : (GetStats (Allow l userID now).2 userID now2).1 = (GetStats l userID now2).1 := by
    rw [GetStats_eq, GetStats_eq, hh, Allow_window, Allow_maxReqs,
      countP_filter_earlier (effectiveWindow l.window) now now2 hle]
  refine ⟨heq, by rw [heq], by rw [hcut]; exact hh, hsub, hsub.count_le now, ?_⟩
  intro hne
  rw [hh, effectiveWindow_of_ne _ hne]
  rfl

theorem rejected_Allow_keeps_current_witness :
    (100 : Int) ≤ 105 ∧
    (Allow ⟨[("u1", [50, 70])], 2, 60⟩ "u1" 100).1 = false ∧
    (GetStats (Allow ⟨[("u1", [50, 70])], 2, 60⟩ "u1" 100).2 "u1" 105).1 = (2, 2) ∧
    histOf (Allow ⟨[("u1", [50, 70])], 2, 60⟩ "u1" 100).2 "u1" = [50, 70] := by
  have h := rejected_Allow_keeps_current ⟨[("u1", [50, 70])], 2, 60⟩ "u1" 100 105
    (by decide) (by decide)
  exact ⟨by decide, by decide, h.1.trans (by decide), h.2.2.1.trans (by decide)⟩

/-- Expiry after waiting, for every window other than `math.MinInt64`.  If
every timestamp recorded for the identity is `<= t` and `now - t >= window`,
then `GetStats` at `now` returns `(0, maxReqs)`, and with `maxReqs >= 1` the
next `Allow` at such a time returns `true`. -/
theorem expired_after_window (l : Limiter) (userID : String) (t now now2 : Int)
    (hwindow : l.window ≠ minInt64)
    (hrec : ∀ x ∈ histOf l userID, x ≤ t)
    (hwait : l.window ≤ now - t) (hwait2 : l.window ≤ now2 - t) :
    (GetStats l userID now).1 = (0, l.maxReqs) ∧
    (1 ≤ l.maxReqs → (Allow (GetStats l userID now).2 userID now2).1 = true) := by
  have hw := effectiveWindow_of_ne l.window hwindow
  have hnone : ∀ n : Int, l.window ≤ n - t →
      ∀ x ∈ histOf l userID, ¬ (inWindow l.window n x = true) := by
    intro n hn x hx
    have := hrec x hx
    simp only [inWindow, decide_eq_true_eq]; omega
  constructor
  · rw [GetStats_eq, hw]
    have : (histOf l userID).countP (inWindow l.window now) = 0 :=
      List.countP_eq_zero.mpr (hnone now hwait)
    rw [this]; rfl
  · intro hmax
    rw [GetStats_state, Allow_fst, hw]
    have : (histOf l userID).filter (inWindow l.window now2) = [] :=
      List.filter_eq_nil_iff.mpr (hnone now2 hwait2)
    rw [this]
    simp only [List.length_nil, decide_eq_true_eq]
    omega

theorem expired_after_window_witness :
    (∀ x ∈ histOf (exec (NewLimiter 2 60)
        [.allow "u1" 0, .allow "u1" 10, .allow "u1" 10]) "u1", x ≤ 10) ∧
    (60 : Int) ≤ 70 - 10 ∧
    (GetStats (exec (NewLimiter 2 60)
        [.allow "u1" 0, .allow "u1" 10, .allow "u1" 10]) "u1" 10).1 = (2, 2) ∧
    (GetStats (exec (NewLimiter 2 60)
        [.allow "u1" 0, .allow "u1" 10, .allow "u1" 10]) "u1" 70).1 = (0, 2) ∧
    (Allow (GetStats (exec (NewLimiter 2 60)
        [.allow "u1" 0, .allow "u1" 10, .allow "u1" 10]) "u1" 70).2 "u1" 70).1 = true := by
  have h := expired_after_window (exec (NewLimiter 2 60)
    [.allow "u1" 0, .allow "u1" 10, .allow "u1" 10]) "u1" 10 70 70
    (by decide) (by decide) (by decide) (by decide)
  exact ⟨by decide, by decide, by decide, h.1.trans (by decide), h.2 (by decide)⟩

/-- C8 fails in the code at `window = math.MinInt64`.  From
`NewLimiter(1, math.MinInt64)`, after `Allow("u1")` at 0 the identity is
saturated and every recorded timestamp is `<= 0`; at `now = 5` the wait
`now - 0` is `>= window`, but the negation `-l.window` wraps, the cutoff is
`5 - 2^63`, nothing expires: `GetStats` returns `(1, 1)`, not `(0, 1)`, and the
next `Allow` returns `false` although `maxReqs >= 1`. -/
theorem minInt64_window_never_expires :
    (∀ x ∈ histOf (exec (NewLimiter 1 minInt64) [Op.allow "u1" 0]) "u1", x ≤ 0) ∧
    (exec (NewLimiter 1 minInt64) [Op.allow "u1" 0]).window ≤ 5 - 0 ∧
    (1 : Int) ≤ (exec (NewLimiter 1 minInt64) [Op.allow "u1" 0]).maxReqs ∧
    (GetStats (exec (NewLimiter 1 minInt64) [Op.allow "u1" 0]) "u1" 5).1 = (1, 1) ∧
    (Allow (GetStats (exec (NewLimiter 1 minInt64) [Op.allow "u1" 0]) "u1" 5).2 "u1" 5).1
      = false := by
  decide

/-! ## Sequences of calls -/

theorem exec_append (l : Limiter) (a b : List Op) :
    exec l (a ++ b) = exec (exec l a) b := by
  induction a generalizing l with
  | nil => rfl
  | cons op a ih => simp [exec, ih]

theorem trace_append (l : Limiter) (a b : List Op) :
    trace l (a ++ b) = trace l a ++ trace (exec l a) b := by
  induction a generalizing l with
  | nil => rfl
  | cons op a ih => simp [exec, trace, ih]

@[simp] theorem step_maxReqs (l : Limiter) (op : Op) : (step l op).2.maxReqs = l.maxReqs := by
  cases op <;> simp [step, GetStats_state]

@[simp] theorem step_window (l : Limiter) (op : Op) : (step l op).2.window = l.window := by
  cases op <;> simp [step, GetStats_state]

@[simp] theorem exec_maxReqs (l : Limiter) (ops : List Op) :
    (exec l ops).maxReqs = l.maxReqs := by
  induction ops generalizing l with
  | nil => rfl
  | cons op ops ih => simp [exec, ih]

@[simp] theorem exec_window (l : Limiter) (ops : List Op) :
    (exec l ops).window = l.window := by
  induction ops generalizing l with
  | nil => rfl
  | cons op ops ih => simp [exec, ih]

/-- A call on one identity leaves the entry of every other identity as it is. -/
theorem step_get_other (l : Limiter) (op : Op) (other : String) (hne : other ≠ op.user) :
    mapGet (step l op).2.users other = mapGet l.users other := by
  cases op with
  | allow u t => exact Allow_get_other l u other t hne
  | getStats u t => simp [step, GetStats_state]

theorem exec_get_other (l : Limiter) (ops : List Op) (other : String)
    (hne : ∀ op ∈ ops, other ≠ op.user) :
    mapGet (exec l ops).users other = mapGet l.users other := by
  induction ops generalizing l with
  | nil => rfl
  | cons op ops ih =>
    simp only [exec]
    rw [ih _ (fun o ho => hne o (List.mem_cons_of_mem _ ho)),
      step_get_other l op other (hne op (List.mem_cons_self _ _))]

/-- A call on an identity sees the limiter only through that identity's entry
and the two configuration fields. -/
theorem step_congr (l₁ l₂ : Limiter) (op : Op)
    (hget : mapGet l₁.users op.user = mapGet l₂.users op.user)
    (hmax : l₁.maxReqs = l₂.maxReqs) (hwin : l₁.window = l₂.window) :
    (step l₁ op).1 = (step l₂ op).1 ∧
    mapGet (step l₁ op).2.users op.user = mapGet (step l₂ op).2.users op.user := by
  have hh : histOf l₁ op.user = histOf l₂ op.user := by simp [histOf, hget]
  cases op with
  | allow u t =>
    simp only [Op.user] at hget hh
    have h1 : (Allow l₁ u t).1 = (Allow l₂ u t).1 := by
      rw [Allow_fst, Allow_fst, hh, hmax, hwin]
    refine ⟨by simp [step, h1], ?_⟩
    simp only [step, Op.user]
    rw [Allow_get, Allow_get, h1, hh, hwin]
  | getStats u t =>
    simp only [Op.user] at hget hh
    refine ⟨?_, by simpa [step, GetStats_state, Op.user] using hget⟩
    simp only [step]
    rw [GetStats_eq, GetStats_eq, hh, hmax, hwin]

theorem trace_congr (B : String) (ops : List Op) (hB : ∀ op ∈ ops, op.user = B)
    (l₁ l₂ : Limiter) (hget : mapGet l₁.users B = mapGet l₂.users B)
    (hmax : l₁.maxReqs = l₂.maxReqs) (hwin : l₁.window = l₂.window) :
    trace l₁ ops = trace l₂ ops := by
  induction ops generalizing l₁ l₂ with
  | nil => rfl
  | cons op ops ih =>
    have hu : op.user = B := hB op (List.mem_cons_self _ _)
    have hs := step_congr l₁ l₂ op (by rw [hu]; exact hget) hmax hwin
    simp only [trace, hs.1]
    rw [ih (fun o ho => hB o (List.mem_cons_of_mem _ ho)) (step l₁ op).2 (step l₂ op).2
      (by rw [← hu]; exact hs.2) (by simp [hmax]) (by simp [hwin])]

/-- C7: identities are independent.  For distinct identities `A` and `B` and any
sequence of `Allow`/`GetStats` calls on `A`, the stored entry of `B` is
unchanged; every later sequence of `Allow`/`GetStats` calls on `B` returns
exactly what it would have returned without the calls on `A`; and when `B` is
fresh and `maxReqs >= 1`, its first `Allow` returns `true`. -/
theorem identities_independent (l : Limiter) (A B : String) (hne : A ≠ B)
    (opsA : List Op) (hA : ∀ op ∈ opsA, op.user = A) :
    mapGet (exec l opsA).users B = mapGet l.users B ∧
    (∀ now, (Allow (exec l opsA) B now).1 = (Allow l B now).1) ∧
    (∀ now, (GetStats (exec l opsA) B now).1 = (GetStats l B now).1) ∧
    (∀ opsB, (∀ op ∈ opsB, op.user = B) → trace (exec l opsA) opsB = trace l opsB) ∧
    (mapGet l.users B = none → 1 ≤ l.maxReqs →
      ∀ now, (Allow (exec l opsA) B now).1 = true) := by
  have hget : mapGet (exec l opsA).users B = mapGet l.users B :=
    exec_get_other l opsA B (fun op ho => by rw [hA op ho]; exact Ne.symm hne)
  have hh : histOf (exec l opsA) B = histOf l B := by simp [histOf, hget]
  have hallow : ∀ now, (Allow (exec l opsA) B now).1 = (Allow l B now).1 := by
    intro now
    rw [Allow_fst, Allow_fst, hh, exec_maxReqs, exec_window]
  refine ⟨hget, hallow, ?_, ?_, ?_⟩
  · intro now
    rw [GetStats_eq, GetStats_eq, hh, exec_maxReqs, exec_window]
  · intro opsB hB
    exact trace_congr B opsB hB _ _ hget (exec_maxReqs _ _) (exec_window _ _)
  · intro hnew hmax now
    rw [hallow, Allow_fst]
    simp only [histOf, hnew, Option.getD_none, List.filter_nil, List.length_nil,
      decide_eq_true_eq]
    omega

theorem identities_independent_witness :
    ("u1" : String) ≠ "u2" ∧
    (Allow (exec (NewLimiter 5 60000)
        [.allow "u1" 0, .allow "u1" 200, .allow "u1" 400, .allow "u1" 600, .allow "u1" 800,
         .allow "u1" 1000, .getStats "u1" 1000, .allow "u1" 1200, .allow "u1" 1400])
      "u1" 1600).1 = false ∧
    (Allow (exec (NewLimiter 5 60000)
        [.allow "u1" 0, .allow "u1" 200, .allow "u1" 400, .allow "u1" 600, .allow "u1" 800,
         .allow "u1" 1000, .getStats "u1" 1000, .allow "u1" 1200, .allow "u1" 1400])
      "u2" 1600).1 = true := by
  have h := identities_independent (NewLimiter 5 60000) "u1" "u2" (by decide)
    [.allow "u1" 0, .allow "u1" 200, .allow "u1" 400, .allow "u1" 600, .allow "u1" 800,
     .allow "u1" 1000, .getStats "u1" 1000, .allow "u1" 1200, .allow "u1" 1400]
    (by decide)
  exact ⟨by decide, by decide, h.2.2.2.2 (by decide) (by decide) 1600⟩

/-! ## The sliding-window quota -/

theorem timeOrdered_snoc (ops : List Op) (op : Op) :
    TimeOrdered (ops ++ [op]) ↔ TimeOrdered ops ∧ ∀ o ∈ ops, o.time ≤ op.time := by
  unfold TimeOrdered
  rw [List.map_append, List.pairwise_append]
  simp

theorem exec_snoc (l : Limiter) (ops : List Op) (op : Op) :
    exec l (ops ++ [op]) = (step (exec l ops) op).2 := by
  rw [exec_append]; rfl

theorem trace_snoc (l : Limiter) (ops : List Op) (op : Op) :
    trace l (ops ++ [op]) = trace l ops ++ [(op, (step (exec l ops) op).1)] := by
  rw [trace_append]; rfl

theorem acceptedTimes_snoc (userID : String) (tr : List (Op × Res)) (e : Op × Res) :
    acceptedTimes userID (tr ++ [e])
      = acceptedTimes userID tr ++ (acceptedAt userID e).toList := by
  unfold acceptedTimes
  rw [List.filterMap_append]
  cases h : acceptedAt userID e <;> simp [List.filterMap, h]

/-- Filtering by a later cutoff absorbs a pruning at an earlier one. -/
theorem filter_after_prune (window now c : Int) (hc : now - window ≤ c) (h : List Int) :
    (h.filter (inWindow window now)).filter (fun x => decide (c < x))
      = h.filter (fun x => decide (c < x)) := by
  rw [List.filter_filter]
  apply List.filter_congr
  intro x _
  by_cases hx : c < x
  · have : now - window < x := by omega
    simp [inWindow, hx, this]
  · simp [hx]

/-- The state reached by a time-ordered run from a new limiter: above any cutoff
that no call of the run has passed, the stored history of an identity is the
list of its accepted timestamps. -/
theorem history_eq_accepted (maxReqs window : Int) (ops : List Op)
    (hord : TimeOrdered ops) (userID : String) (c : Int)
    (hc : ∀ op ∈ ops, op.time - effectiveWindow window ≤ c) :
    (histOf (exec (NewLimiter maxReqs window) ops) userID).filter (fun x => decide (c < x))
      = (acceptedTimes userID (trace (NewLimiter maxReqs window) ops)).filter
          (fun x => decide (c < x)) := by
  induction ops using List.reverseRecOn generalizing c with
  | nil => simp [exec, trace, histOf, NewLimiter, mapGet, acceptedTimes]
  | append_singleton ops op ih =>
    rw [timeOrdered_snoc] at hord
    have hc' : ∀ o ∈ ops, o.time - effectiveWindow window ≤ c := fun o ho =>
      hc o (List.mem_append_left _ ho)
    have hcop : op.time - effectiveWindow window ≤ c := hc op (by simp)
    have ih' := ih hord.1 c hc'
    rw [exec_snoc, trace_snoc, acceptedTimes_snoc, List.filter_append]
    cases op with
    | getStats u t =>
      simp only [step, GetStats_state, acceptedAt, Option.toList, List.filter_nil,
        List.append_nil]
      exact ih'
    | allow u t =>
      simp only [Op.time] at hcop
      by_cases hu : userID = u
      · subst hu
        simp only [step]
        rw [Allow_hist, exec_window]
        have hw : (NewLimiter maxReqs window).window = window := rfl
        rw [hw]
        cases hok : (Allow (exec (NewLimiter maxReqs window) ops) userID t).1
        · simp only [acceptedAt, Option.toList, List.filter_nil, List.append_nil,
            Bool.false_eq_true, if_false]
          rw [filter_after_prune (effectiveWindow window) t c hcop]
          exact ih'
        · simp only [acceptedAt, if_true, Option.toList, List.filter_append]
          rw [filter_after_prune (effectiveWindow window) t c hcop, ih']
      · simp only [step]
        rw [Allow_hist_other _ _ _ _ hu]
        have : acceptedAt userID
            (Op.allow u t, Res.allowed (Allow (exec (NewLimiter maxReqs window) ops) u t).1)
            = none := by
          cases (Allow (exec (NewLimiter maxReqs window) ops) u t).1 <;>
            simp [acceptedAt, Ne.symm hu]
        rw [this]
        simpa using ih'

/-- C1: the sliding-window quota.  With `maxReqs >= 0`, from
`NewLimiter(maxReqs, window)` and for every sequence of calls (of any
identities) at non-decreasing timestamps, for every identity and every instant
`t`, the number of that identity's `Allow` calls that returned `true` with
timestamp in `(t - window, t]` is at most `maxReqs`. -/
theorem sliding_window_quota (maxReqs window : Int) (hmax : 0 ≤ maxReqs)
    (ops : List Op) (hord : TimeOrdered ops) (userID : String) (t : Int) :
    (((acceptedTimes userID (trace (NewLimiter maxReqs window) ops)).countP
        (inInterval window t) : Nat) : Int) ≤ maxReqs := by
  induction ops using List.reverseRecOn with
  | nil => simpa [trace, acceptedTimes] using hmax
  | append_singleton ops op ih =>
    have hord' := (timeOrdered_snoc ops op).mp hord
    have ih' := ih hord'.1
    rw [trace_snoc, acceptedTimes_snoc, List.countP_append]
    cases hacc : acceptedAt userID (op, (step (exec (NewLimiter maxReqs window) ops) op).1) with
    | none => simpa using ih'
    | some ts =>
      cases op with
      | getStats u now => simp [acceptedAt, step] at hacc
      | allow u now =>
        simp only [step] at hacc
        cases hok : (Allow (exec (NewLimiter maxReqs window) ops) u now).1 with
        | false => simp [acceptedAt, hok] at hacc
        | true =>
          rw [hok] at hacc
          by_cases hu : u = userID
          · subst hu
            simp only [acceptedAt, if_true, Option.some.injEq] at hacc
            subst hacc
            by_cases hin : inInterval window t now = true
            · -- the accepted call is inside the window that ends at `t`
              have hb : t - window < now ∧ now ≤ t := by
                simpa [inInterval] using hin
              have hlt := hok
              rw [Allow_fst, exec_window, exec_maxReqs] at hlt
              have hlt' : (((histOf (exec (NewLimiter maxReqs window) ops) u).filter
                  (fun x => decide (now - effectiveWindow window < x))).length : Int)
                  < maxReqs := by
                simpa [NewLimiter, inWindow] using hlt
              rw [history_eq_accepted maxReqs window ops hord'.1 u
                (now - effectiveWindow window)
                (fun o ho => by have : o.time ≤ now := hord'.2 o ho; omega)]
                at hlt'
              have hwle := le_effectiveWindow window
              have hmono : (acceptedTimes u (trace (NewLimiter maxReqs window) ops)).countP
                  (inInterval window t)
                  ≤ ((acceptedTimes u (trace (NewLimiter maxReqs window) ops)).filter
                      (fun x => decide (now - effectiveWindow window < x))).length := by
                rw [← List.countP_eq_length_filter]
                apply List.countP_mono_left
                intro x _ hx
                have hx' : t - window < x ∧ x ≤ t := by simpa [inInterval] using hx
                simp only [decide_eq_true_eq]
                omega
              simp only [Option.toList, List.countP_cons, List.countP_nil, hin, if_true]
              omega
            · simp only [Option.toList, List.countP_cons, List.countP_nil, hin]
              simpa using ih'
          · simp [acceptedAt, hu] at hacc

theorem sliding_window_quota_witness :
    (0 : Int) ≤ 2 ∧
    TimeOrdered [.allow "u1" 0, .allow "u2" 5, .allow "u1" 10, .allow "u1" 20,
      .allow "u1" 60, .allow "u1" 61, .allow "u1" 70] ∧
    acceptedTimes "u1" (trace (NewLimiter 2 60)
      [.allow "u1" 0, .allow "u2" 5, .allow "u1" 10, .allow "u1" 20,
       .allow "u1" 60, .allow "u1" 61, .allow "u1" 70]) = [0, 10, 60, 70] ∧
    (((acceptedTimes "u1" (trace (NewLimiter 2 60)
      [.allow "u1" 0, .allow "u2" 5, .allow "u1" 10, .allow "u1" 20,
       .allow "u1" 60, .allow "u1" 61, .allow "u1" 70])).countP
        (inInterval 60 69) : Nat) : Int) ≤ 2 :=
  ⟨by decide, by decide, by decide,
    sliding_window_quota 2 60 (by decide)
      [.allow "u1" 0, .allow "u2" 5, .allow "u1" 10, .allow "u1" 20,
       .allow "u1" 60, .allow "u1" 61, .allow "u1" 70] (by decide) "u1" 69⟩

/-! ## The stored history and the window -/

/-- A timestamp stored after a call was stored before it or is the call's own. -/
theorem step_hist_mem (l : Limiter) (op : Op) (userID : String) (x : Int)
    (hx : x ∈ histOf (step l op).2 userID) : x ∈ histOf l userID ∨ x = op.time := by
  cases op with
  | getStats u t =>
    left; simpa [step, GetStats_state] using hx
  | allow u t =>
    simp only [step] at hx
    by_cases hu : userID = u
    · subst hu
      rw [Allow_hist] at hx
      split_ifs at hx
      · rcases List.mem_append.mp hx with h | h
        · exact Or.inl (List.mem_of_mem_filter h)
        · right; simpa [Op.time] using h
      · exact Or.inl (List.mem_of_mem_filter hx)
    · rw [Allow_hist_other _ _ _ _ hu] at hx
      exact Or.inl hx

/-- Every stored timestamp is an initial one or the time of a call of the run. -/
theorem exec_hist_mem (l : Limiter) (ops : List Op) (userID : String) (x : Int)
    (hx : x ∈ histOf (exec l ops) userID) :
    x ∈ histOf l userID ∨ ∃ o ∈ ops, o.time = x := by
  induction ops generalizing l with
  | nil => exact Or.inl hx
  | cons op ops ih =>
    rcases ih (step l op).2 hx with h | ⟨o, ho, hox⟩
    · rcases step_hist_mem l op userID x h with h' | h'
      · exact Or.inl h'
      · exact Or.inr ⟨op, List.mem_cons_self _ _, h'.symm⟩
    · exact Or.inr ⟨o, List.mem_cons_of_mem _ ho, hox⟩

/-- In a run from a new limiter no stored timestamp is later than a clock
reading that no call of the run has passed. -/
theorem exec_hist_le (maxReqs window : Int) (ops : List Op) (userID : String) (now : Int)
    (hnow : ∀ o ∈ ops, o.time ≤ now) :
    ∀ x ∈ histOf (exec (NewLimiter maxReqs window) ops) userID, x ≤ now := by
  intro x hx
  rcases exec_hist_mem _ ops userID x hx with h | ⟨o, ho, hox⟩
  · simp [histOf, NewLimiter, mapGet] at h
  · rw [← hox]; exact hnow o ho

/-- C9, as the specification states it, fails: `GetStats` does not prune.  From
`NewLimiter(5, 60)`, after `Allow("u1")` at 0 and `GetStats("u1")` at 100 (a
time-ordered run with `window > 0`), the stored history of `"u1"` still holds
the timestamp 0, which is outside `[100 - 60, 100]`. -/
theorem history_window_fails_after_GetStats :
    (0 : Int) < 60 ∧
    TimeOrdered ([Op.allow "u1" 0] ++ [Op.getStats "u1" 100]) ∧
    histOf (exec (NewLimiter 5 60) ([Op.allow "u1" 0] ++ [Op.getStats "u1" 100])) "u1" = [0] ∧
    ¬ (∀ x ∈ histOf (exec (NewLimiter 5 60)
          ([Op.allow "u1" 0] ++ [Op.getStats "u1" 100])) "u1",
        (100 : Int) - 60 ≤ x ∧ x ≤ 100) := by
  decide

/-- C9, amended: in a run from `NewLimiter` with `window > 0` at non-decreasing
timestamps, right after an `Allow` on an identity at `now` every timestamp
stored for that identity lies in `(now - window, now]`, hence in
`[now - window, now]`.  A `GetStats` at `now` leaves the stored history as it
was, and the count it returns is the number of stored timestamps in
`(now - window, now]`. -/
theorem history_window_after_Allow (maxReqs window : Int) (hwindow : 0 < window)
    (pre : List Op) (userID : String) (now : Int)
    (hord : TimeOrdered (pre ++ [Op.allow userID now])) :
    (∀ x ∈ histOf (exec (NewLimiter maxReqs window) (pre ++ [Op.allow userID now])) userID,
        now - window < x ∧ now - window ≤ x ∧ x ≤ now) ∧
    histOf (exec (NewLimiter maxReqs window) (pre ++ [Op.getStats userID now])) userID
      = histOf (exec (NewLimiter maxReqs window) pre) userID ∧
    (GetStats (exec (NewLimiter maxReqs window) pre) userID now).1.1
      = Int.ofNat ((histOf (exec (NewLimiter maxReqs window) pre) userID).countP
          (inInterval window now)) := by
  have hnow : ∀ o ∈ pre, o.time ≤ now := ((timeOrdered_snoc pre _).mp hord).2
  have hle := exec_hist_le maxReqs window pre userID now hnow
  have hw : effectiveWindow window = window := effectiveWindow_of_pos window hwindow
  refine ⟨?_, ?_, ?_⟩
  · intro x hx
    rw [exec_snoc] at hx
    simp only [step] at hx
    rw [Allow_hist, exec_window] at hx
    have hcut : ∀ y ∈ (histOf (exec (NewLimiter maxReqs window) pre) userID).filter
        (inWindow (effectiveWindow (NewLimiter maxReqs window).window) now),
        now - window < y ∧ now - window ≤ y ∧ y ≤ now := by
      intro y hy
      have h1 := hle y (List.mem_of_mem_filter hy)
      have h2 : now - window < y := by
        simpa [inWindow, NewLimiter, hw] using (List.mem_filter.mp hy).2
      exact ⟨h2, le_of_lt h2, h1⟩
    split_ifs at hx
    · rcases List.mem_append.mp hx with h | h
      · exact hcut x h
      · have : x = now := by simpa using h
        subst this
        exact ⟨by omega, by omega, le_rfl⟩
    · exact hcut x hx
  · rw [exec_snoc]; simp [step, GetStats_state]
  · rw [GetStats_eq, exec_window]
    have hcount : (histOf (exec (NewLimiter maxReqs window) pre) userID).countP
          (inWindow (effectiveWindow (NewLimiter maxReqs window).window) now)
        = (histOf (exec (NewLimiter maxReqs window) pre) userID).countP
          (inInterval window now) := by
      apply List.countP_congr
      intro x hx
      have := hle x hx
      simp [inWindow, inInterval, NewLimiter, this, hw]
    rw [hcount]

theorem history_window_after_Allow_witness :
    (0 : Int) < 60 ∧
    TimeOrdered ([Op.allow "u1" 0, Op.allow "u1" 50, Op.getStats "u1" 100]
      ++ [Op.allow "u1" 100]) ∧
    (∀ x ∈ histOf (exec (NewLimiter 5 60)
        ([Op.allow "u1" 0, Op.allow "u1" 50, Op.getStats "u1" 100] ++ [Op.allow "u1" 100]))
        "u1", (100 : Int) - 60 < x ∧ 100 - 60 ≤ x ∧ x ≤ 100) ∧
    histOf (exec (NewLimiter 5 60)
        ([Op.allow "u1" 0, Op.allow "u1" 50, Op.getStats "u1" 100] ++ [Op.allow "u1" 100]))
        "u1" = [50, 100] :=
  ⟨by decide, by decide,
    (history_window_after_Allow 5 60 (by decide)
      [Op.allow "u1" 0, Op.allow "u1" 50, Op.getStats "u1" 100] "u1" 100 (by decide)).1,
    by decide⟩

/-! ## A burst of calls from one identity -/

/-- In a non-decreasing list whose last element is less than `w` after its
first, any two elements are less than `w` apart. -/
theorem span_of_sorted (ts : List Int) (w : Int) (hord : ts.Pairwise (· ≤ ·))
    (hspan : ∀ first last, ts.head? = some first → ts.getLast? = some last →
      last - first < w) :
    ∀ a ∈ ts, ∀ b ∈ ts, b - a < w := by
  cases ts with
  | nil => intro a ha; simp at ha
  | cons t₀ rest =>
    have hne : t₀ :: rest ≠ [] := List.cons_ne_nil _ _
    have hs := hspan t₀ ((t₀ :: rest).getLast hne) rfl (List.getLast?_eq_getLast _ hne)
    have hfirst : ∀ a ∈ t₀ :: rest, t₀ ≤ a := by
      intro a ha
      rcases List.mem_cons.mp ha with h | h
      · rw [h]
      · exact (List.pairwise_cons.mp hord).1 a h
    have hlast : ∀ b ∈ t₀ :: rest, b ≤ (t₀ :: rest).getLast hne := by
      intro b hb
      have hsplit := List.dropLast_append_getLast hne
      rw [← hsplit] at hb hord
      rcases List.mem_append.mp hb with h | h
      · exact (List.pairwise_append.mp hord).2.2 b h _ (by simp)
      · have : b = (t₀ :: rest).getLast hne := by simpa using h
        rw [this]
    intro a ha b hb
    have := hfirst a ha
    have := hlast b hb
    omega

/-- A burst on an identity with `d` requests of quota left, all stored
timestamps and all call times within one window of each other: the first
`min K d` calls are accepted, the rest rejected, and the accepted timestamps are
appended to the history. -/
theorem burst_aux (userID : String) (ts : List Int) :
    ∀ (l : Limiter) (d : Nat),
      l.maxReqs = Int.ofNat ((histOf l userID).length + d) →
      (∀ t ∈ ts, ∀ x ∈ histOf l userID, t - l.window < x) →
      (∀ a ∈ ts, ∀ b ∈ ts, b - a < l.window) →
      (trace l (ts.map (Op.allow userID))).map Prod.snd
          = List.replicate (min ts.length d) (Res.allowed true)
            ++ List.replicate (ts.length - min ts.length d) (Res.allowed false) ∧
      histOf (exec l (ts.map (Op.allow userID))) userID
          = histOf l userID ++ ts.take d := by
  induction ts with
  | nil => intro l d _ _ _; simp [trace, exec]
  | cons t rest ih =>
    intro l d hmax hin hspan
    have hkeep : (histOf l userID).filter (inWindow (effectiveWindow l.window) t)
        = histOf l userID := by
      apply List.filter_eq_self.mpr
      intro x hx
      have h1 := hin t (List.mem_cons_self _ _) x hx
      have h2 := le_effectiveWindow l.window
      simp only [inWindow, decide_eq_true_eq]
      omega
    have hspan' : ∀ a ∈ rest, ∀ b ∈ rest, b - a < (Allow l userID t).2.window := by
      intro a ha b hb
      rw [Allow_window]
      exact hspan a (List.mem_cons_of_mem _ ha) b (List.mem_cons_of_mem _ hb)
    cases d with
    | zero =>
      have hok : (Allow l userID t).1 = false := by
        rw [Allow_fst, hkeep, hmax]; simp
      have hh : histOf (Allow l userID t).2 userID = histOf l userID := by
        rw [Allow_hist, hok, hkeep]; simp
      have := ih (Allow l userID t).2 0 (by rw [hh, Allow_maxReqs]; exact hmax)
        (by
          intro t' ht' x hx
          rw [hh] at hx; rw [Allow_window]
          exact hin t' (List.mem_cons_of_mem _ ht') x hx)
        hspan'
      simp only [List.map_cons, trace, exec, step, hok, this.1, this.2, hh]
      simp [List.replicate_succ]
    | succ d =>
      have hok : (Allow l userID t).1 = true := by
        rw [Allow_fst, hkeep, hmax]
        simp only [decide_eq_true_eq, Int.ofNat_eq_coe]
        push_cast; omega
      have hh : histOf (Allow l userID t).2 userID = histOf l userID ++ [t] := by
        rw [Allow_hist, hok, hkeep]; simp
      have := ih (Allow l userID t).2 d
        (by
          rw [hh, Allow_maxReqs, hmax]
          simp only [List.length_append, List.length_singleton, Int.ofNat_eq_coe]
          push_cast; omega)
        (by
          intro t' ht' x hx
          rw [hh] at hx; rw [Allow_window]
          rcases List.mem_append.mp hx with h | h
          · exact hin t' (List.mem_cons_of_mem _ ht') x h
          · have hx' : x = t := by simpa using h
            have := hspan t (List.mem_cons_self _ _) t' (List.mem_cons_of_mem _ ht')
            omega)
        hspan'
      simp only [List.map_cons, trace, exec, step, hok, this.1, this.2, hh]
      simp [List.replicate_succ, Nat.succ_min_succ]

/-- C10: a burst from a fresh identity.  With `maxReqs = M` (a natural number),
an identity without an entry and `K` sequential `Allow` calls at non-decreasing
timestamps whose span (last minus first) is strictly less than `window` (which
forces `window > 0` as soon as there is a call): the calls return `true` for
exactly the first `min K M` and `false` for the rest; and when `M <= K`,
`GetStats` after the `M`-th call returns `(M, M)`, at the clock reading of that
call and at every `now` whose window still holds the first `M` timestamps. -/
theorem burst_from_fresh_identity (l : Limiter) (userID : String) (M : Nat)
    (ts : List Int) (hM : l.maxReqs = Int.ofNat M)
    (hnew : mapGet l.users userID = none)
    (hord : ts.Pairwise (· ≤ ·))
    (hspan : ∀ first last, ts.head? = some first → ts.getLast? = some last →
      last - first < l.window) :
    (trace l (ts.map (Op.allow userID))).map Prod.snd
        = List.replicate (min ts.length M) (Res.allowed true)
          ++ List.replicate (ts.length - min ts.length M) (Res.allowed false) ∧
    (M ≤ ts.length →
      (∀ now, (∀ x ∈ ts.take M, now - l.window < x) →
        (GetStats (exec l ((ts.take M).map (Op.allow userID))) userID now).1
          = (Int.ofNat M, Int.ofNat M)) ∧
      (∀ tM, (ts.take M).getLast? = some tM →
        (GetStats (exec l ((ts.take M).map (Op.allow userID))) userID tM).1
          = (Int.ofNat M, Int.ofNat M))) := by
  have hpair := span_of_sorted ts l.window hord hspan
  have hempty : histOf l userID = [] := by simp [histOf, hnew]
  have hmax : l.maxReqs = Int.ofNat ((histOf l userID).length + M) := by
    rw [hempty, hM]; simp
  have hmain := burst_aux userID ts l M hmax (by rw [hempty]; simp) hpair
  refine ⟨hmain.1, ?_⟩
  intro hMK
  have htake : ∀ x ∈ ts.take M, x ∈ ts := fun x hx => List.mem_of_mem_take hx
  have hfront := burst_aux userID (ts.take M) l M hmax (by rw [hempty]; simp)
    (fun a ha b hb => hpair a (htake a ha) b (htake b hb))
  have hhist : histOf (exec l ((ts.take M).map (Op.allow userID))) userID = ts.take M := by
    rw [hfront.2, hempty, List.take_take]; simp
  have hgen : ∀ now, (∀ x ∈ ts.take M, now - l.window < x) →
      (GetStats (exec l ((ts.take M).map (Op.allow userID))) userID now).1
        = (Int.ofNat M, Int.ofNat M) := by
    intro now hin
    rw [GetStats_eq, hhist, exec_window, exec_maxReqs, hM]
    have hall : (ts.take M).countP (inWindow (effectiveWindow l.window) now)
        = (ts.take M).length :=
      List.countP_eq_length.mpr (fun x hx => by
        have h1 := hin x hx
        have h2 := le_effectiveWindow l.window
        simp only [inWindow, decide_eq_true_eq]
        omega)
    rw [hall, List.length_take, Nat.min_eq_left hMK]
  refine ⟨hgen, ?_⟩
  intro tM hlast
  apply hgen
  intro x hx
  have htM : tM ∈ ts.take M := List.mem_of_getLast?_eq_some hlast
  have := hpair x (htake x hx) tM (htake tM htM)
  omega

theorem burst_from_fresh_identity_witness :
    (NewLimiter 5 60000).maxReqs = Int.ofNat 5 ∧
    mapGet (NewLimiter 5 60000).users "u1" = none ∧
    List.Pairwise (· ≤ ·) [(0 : Int), 200, 400, 600, 800, 1000, 1200, 1400] ∧
    (1400 : Int) - 0 < (NewLimiter 5 60000).window ∧
    (trace (NewLimiter 5 60000)
        ([(0 : Int), 200, 400, 600, 800, 1000, 1200, 1400].map (Op.allow "u1"))).map Prod.snd
      = [Res.allowed true, Res.allowed true, Res.allowed true, Res.allowed true,
         Res.allowed true, Res.allowed false, Res.allowed false, Res.allowed false] ∧
    (GetStats (exec (NewLimiter 5 60000)
        (([(0 : Int), 200, 400, 600, 800, 1000, 1200, 1400].take 5).map (Op.allow "u1")))
      "u1" 800).1 = (5, 5) := by
  have h := burst_from_fresh_identity (NewLimiter 5 60000) "u1" 5
    [0, 200, 400, 600, 800, 1000, 1200, 1400] (by decide) (by decide) (by decide)
    (by
      intro first last h1 h2
      cases h1; cases h2
      decide)
  exact ⟨by decide, by decide, by decide, by decide, h.1,
    (h.2 (by decide)).2 800 (by decide)⟩

/-! ## Degenerate configurations -/

/-- With a non-positive quota a run never stores a timestamp. -/
theorem deny_all_invariant (ops : List Op) :
    ∀ (l : Limiter), l.maxReqs ≤ 0 → (∀ u, histOf l u = []) →
      ∀ u, histOf (exec l ops) u = [] := by
  induction ops with
  | nil => intro l _ h u; exact h u
  | cons op ops ih =>
    intro l hmax hempty
    apply ih (step l op).2 (by simpa using hmax)
    intro u
    cases op with
    | getStats u' t => simpa [step, GetStats_state] using hempty u
    | allow u' t =>
      simp only [step]
      by_cases hu : u = u'
      · subst hu
        rw [Allow_hist, hempty u]
        have hrej : (Allow l u t).1 = false := by
          rw [Allow_fst, hempty u]
          simp only [List.filter_nil, List.length_nil, decide_eq_false_iff_not]
          push_cast; omega
        simp [hrej]
      · rw [Allow_hist_other _ _ _ _ hu]; exact hempty u

/-- C11: a non-positive quota degrades to deny-all.  If `maxReqs <= 0` then in
every state reached from `NewLimiter(maxReqs, window)` by any calls, for every
identity and timestamp, `Allow` returns `false` and records nothing: the
identity's history is empty before and after the call, and `GetStats` reports a
count of 0. -/
theorem nonpositive_quota_denies_all (maxReqs window : Int) (hmax : maxReqs ≤ 0)
    (ops : List Op) (userID : String) (now : Int) :
    (Allow (exec (NewLimiter maxReqs window) ops) userID now).1 = false ∧
    histOf (exec (NewLimiter maxReqs window) ops) userID = [] ∧
    histOf (Allow (exec (NewLimiter maxReqs window) ops) userID now).2 userID = [] ∧
    (GetStats (exec (NewLimiter maxReqs window) ops) userID now).1 = (0, maxReqs) ∧
    (GetStats (Allow (exec (NewLimiter maxReqs window) ops) userID now).2 userID now).1
      = (0, maxReqs) := by
  have hnew : ∀ u, histOf (NewLimiter maxReqs window) u = [] := by
    intro u; simp [histOf, NewLimiter, mapGet]
  have hempty := deny_all_invariant ops (NewLimiter maxReqs window) hmax hnew
  have hafter := deny_all_invariant (ops ++ [Op.allow userID now])
    (NewLimiter maxReqs window) hmax hnew userID
  rw [exec_snoc] at hafter
  simp only [step] at hafter
  have hrej : (Allow (exec (NewLimiter maxReqs window) ops) userID now).1 = false := by
    rw [Allow_fst, hempty userID, exec_maxReqs]
    simp only [List.filter_nil, List.length_nil, decide_eq_false_iff_not, NewLimiter]
    push_cast; omega
  refine ⟨hrej, hempty userID, hafter, ?_, ?_⟩
  · rw [GetStats_eq, hempty userID, exec_maxReqs]; rfl
  · rw [GetStats_eq, hafter, Allow_maxReqs, exec_maxReqs]; rfl

theorem nonpositive_quota_denies_all_witness :
    (0 : Int) ≤ 0 ∧
    (Allow (exec (NewLimiter 0 60) [Op.allow "u1" 0, Op.allow "u2" 5]) "u1" 10).1 = false ∧
    (GetStats (exec (NewLimiter 0 60) [Op.allow "u1" 0, Op.allow "u2" 5]) "u1" 10).1
      = (0, 0) := by
  have h := nonpositive_quota_denies_all 0 60 (by decide)
    [Op.allow "u1" 0, Op.allow "u2" 5] "u1" 10
  exact ⟨by decide, h.1, h.2.2.2.1⟩

/-- A non-positive window other than `math.MinInt64` degrades to allow-all.  If
`math.MinInt64 < window <= 0` and `maxReqs >= 1` then in every run from
`NewLimiter(maxReqs, window)` at non-decreasing timestamps every `Allow` returns
`true`, and right after the call the identity's history holds exactly one
entry, the timestamp of that call. -/
theorem nonpositive_window_allows_all (maxReqs window : Int) (hwindow : window ≤ 0)
    (hne : window ≠ minInt64)
    (hmax : 1 ≤ maxReqs) (pre : List Op) (userID : String) (now : Int)
    (hord : TimeOrdered (pre ++ [Op.allow userID now])) :
    (Allow (exec (NewLimiter maxReqs window) pre) userID now).1 = true ∧
    histOf (exec (NewLimiter maxReqs window) (pre ++ [Op.allow userID now])) userID = [now] ∧
    (histOf (exec (NewLimiter maxReqs window) (pre ++ [Op.allow userID now])) userID).length
      = 1 := by
  have hnow : ∀ o ∈ pre, o.time ≤ now := ((timeOrdered_snoc pre _).mp hord).2
  have hle := exec_hist_le maxReqs window pre userID now hnow
  have hw : effectiveWindow window = window := effectiveWindow_of_ne window hne
  have hstale : (histOf (exec (NewLimiter maxReqs window) pre) userID).filter
      (inWindow (effectiveWindow (exec (NewLimiter maxReqs window) pre).window) now) = [] := by
    apply List.filter_eq_nil_iff.mpr
    intro x hx
    have := hle x hx
    simp only [exec_window, NewLimiter, inWindow, decide_eq_true_eq, hw]
    omega
  have hok : (Allow (exec (NewLimiter maxReqs window) pre) userID now).1 = true := by
    rw [Allow_fst, hstale, exec_maxReqs]
    simp only [List.length_nil, decide_eq_true_eq, NewLimiter]
    push_cast; omega
  have hh : histOf (exec (NewLimiter maxReqs window) (pre ++ [Op.allow userID now])) userID
      = [now] := by
    rw [exec_snoc]
    simp only [step]
    rw [Allow_hist, hok, hstale]
    simp
  exact ⟨hok, hh, by rw [hh]; rfl⟩

theorem nonpositive_window_allows_all_witness :
    (0 : Int) ≤ 0 ∧ (1 : Int) ≤ 1 ∧
    TimeOrdered ([Op.allow "u1" 0, Op.allow "u1" 0, Op.allow "u1" 3] ++ [Op.allow "u1" 3]) ∧
    (Allow (exec (NewLimiter 1 0) [Op.allow "u1" 0, Op.allow "u1" 0, Op.allow "u1" 3])
      "u1" 3).1 = true ∧
    histOf (exec (NewLimiter 1 0)
      ([Op.allow "u1" 0, Op.allow "u1" 0, Op.allow "u1" 3] ++ [Op.allow "u1" 3])) "u1" = [3] := by
  have h := nonpositive_window_allows_all 1 0 (by decide) (by decide) (by decide)
    [Op.allow "u1" 0, Op.allow "u1" 0, Op.allow "u1" 3] "u1" 3 (by decide)
  exact ⟨by decide, by decide, by decide, h.1, h.2.1⟩

/-- C12 fails in the code at `window = math.MinInt64`.  That window is `<= 0` and
`maxReqs = 1 >= 1`, the two `Allow("u1")` calls are at non-decreasing
timestamps, and yet the second one returns `false`: the negation `-l.window`
wraps, the cutoff is `now - 2^63`, the first timestamp is never pruned, and the
history after the second call is `[0]`, not `[5]`. -/
theorem minInt64_window_rejects_second_call :
    minInt64 ≤ 0 ∧ (1 : Int) ≤ 1 ∧
    TimeOrdered ([Op.allow "u1" 0] ++ [Op.allow "u1" 5]) ∧
    (trace (NewLimiter 1 minInt64) [Op.allow "u1" 0, Op.allow "u1" 5]).map Prod.snd
      = [Res.allowed true, Res.allowed false] ∧
    (Allow (exec (NewLimiter 1 minInt64) [Op.allow "u1" 0]) "u1" 5).1 = false ∧
    histOf (exec (NewLimiter 1 minInt64) ([Op.allow "u1" 0] ++ [Op.allow "u1" 5])) "u1"
      = [0] ∧
    (GetStats (exec (NewLimiter 1 minInt64) [Op.allow "u1" 0, Op.allow "u1" 5]) "u1" 5).1
      = (1, 1) := by
  decide

/-! ## The registry and the size of a stored history -/

theorem mapKeys_check_present (l : Limiter) (userID : String) (now : Int)
    (h : userID ∈ mapKeys l.users) :
    mapKeys (checkUnderUserLock l userID now).2.users = mapKeys l.users := by
  unfold checkUnderUserLock
  dsimp only
  split_ifs <;> simp only [mapKeys_mapSet_present _ _ _ h]

theorem mapKeys_Allow_absent (l : Limiter) (userID : String) (now : Int)
    (h : userID ∉ mapKeys l.users) :
    mapKeys (Allow l userID now).2.users = mapKeys l.users ++ [userID] := by
  have hnone : mapGet l.users userID = none := by
    cases hg : mapGet l.users userID with
    | none => rfl
    | some v =>
      exact absurd ((mapGet_isSome_iff_mem_keys l.users userID).mp (by simp [hg])) h
  have hres : mapKeys (resolveOrCreate l userID).users = mapKeys l.users ++ [userID] := by
    unfold resolveOrCreate
    simp only [hnone, Option.isNone_none, if_true]
    exact mapKeys_mapSet_absent _ _ _ h
  unfold Allow
  rw [mapKeys_check_present _ _ _ (by rw [hres]; simp), hres]

theorem mapKeys_Allow_present (l : Limiter) (userID : String) (now : Int)
    (h : userID ∈ mapKeys l.users) :
    mapKeys (Allow l userID now).2.users = mapKeys l.users := by
  have hsome : (mapGet l.users userID).isSome = true :=
    (mapGet_isSome_iff_mem_keys l.users userID).mpr h
  unfold Allow
  rw [resolveOrCreate_present l userID hsome, mapKeys_check_present _ _ _ h]

/-- C13: the registry only grows.  For every limiter state and every call: each
identity present before an `Allow` or a `GetStats` is present after it;
`Allow(userID)` adds exactly the key `userID` when it was absent and no key when
it was present, in which case the stored history is the old one pruned at the
cutoff `now.Add(-window)` (which is `now - window` unless `window` is
`math.MinInt64`), plus `now` when accepted, not a fresh empty one; `GetStats`
adds no key. -/
theorem registry_only_grows (l : Limiter) (userID : String) (now : Int) :
    (∀ k, k ∈ mapKeys l.users → k ∈ mapKeys (Allow l userID now).2.users) ∧
    (∀ k, k ∈ mapKeys l.users → k ∈ mapKeys (GetStats l userID now).2.users) ∧
    (userID ∉ mapKeys l.users →
      mapKeys (Allow l userID now).2.users = mapKeys l.users ++ [userID]) ∧
    (userID ∈ mapKeys l.users →
      mapKeys (Allow l userID now).2.users = mapKeys l.users) ∧
    (∀ requests, mapGet l.users userID = some requests →
      mapGet (Allow l userID now).2.users userID = some
        (if (Allow l userID now).1 = true
         then requests.filter (fun t => decide (now + negDuration l.window < t)) ++ [now]
         else requests.filter (fun t => decide (now + negDuration l.window < t)))) ∧
    mapKeys (GetStats l userID now).2.users = mapKeys l.users ∧
    (l.window ≠ minInt64 → ∀ requests, mapGet l.users userID = some requests →
      mapGet (Allow l userID now).2.users userID = some
        (if (Allow l userID now).1 = true
         then requests.filter (fun t => decide (now - l.window < t)) ++ [now]
         else requests.filter (fun t => decide (now - l.window < t)))) := by
  refine ⟨?_, ?_, mapKeys_Allow_absent l userID now, mapKeys_Allow_present l userID now,
    ?_, by rw [GetStats_state], ?_⟩
  · intro k hk
    by_cases h : userID ∈ mapKeys l.users
    · rw [mapKeys_Allow_present l userID now h]; exact hk
    · rw [mapKeys_Allow_absent l userID now h]; exact List.mem_append_left _ hk
  · intro k hk; rw [GetStats_state]; exact hk
  · intro requests hget
    have hh : histOf l userID = requests := by simp [histOf, hget]
    have hcut : (fun t => decide (now + negDuration l.window < t))
        = inWindow (effectiveWindow l.window) now := by
      funext t; simp only [inWindow, cutoff_eq]
    rw [Allow_get, hh, hcut]
  · intro hne requests hget
    have hh : histOf l userID = requests := by simp [histOf, hget]
    rw [Allow_get, hh, effectiveWindow_of_ne _ hne]
    rfl

/-- The number of stored timestamps of an identity never exceeds a non-negative
quota, whatever calls are made. -/
theorem hist_length_invariant (ops : List Op) :
    ∀ (l : Limiter), (∀ u, ((histOf l u).length : Int) ≤ l.maxReqs) →
      ∀ u, ((histOf (exec l ops) u).length : Int) ≤ l.maxReqs := by
  induction ops with
  | nil => intro l h u; exact h u
  | cons op ops ih =>
    intro l hinv u
    have hstep : ∀ v, ((histOf (step l op).2 v).length : Int) ≤ (step l op).2.maxReqs := by
      intro v
      rw [step_maxReqs]
      cases op with
      | getStats u' t => simpa [step, GetStats_state] using hinv v
      | allow u' t =>
        simp only [step]
        by_cases hv : v = u'
        · subst hv
          rw [Allow_hist]
          have hfl : ((histOf l v).filter (inWindow (effectiveWindow l.window) t)).length
              ≤ (histOf l v).length := List.length_filter_le _ _
          have hold := hinv v
          cases hok : (Allow l v t).1
          · simp only [Bool.false_eq_true, if_false]
            omega
          · have hlt := hok
            rw [Allow_fst] at hlt
            have hlt' : (((histOf l v).filter
                (inWindow (effectiveWindow l.window) t)).length : Int)
                < l.maxReqs := by simpa using hlt
            simp only [if_true, List.length_append, List.length_singleton]
            push_cast; omega
        · rw [Allow_hist_other _ _ _ _ hv]; exact hinv v
    have := ih (step l op).2 hstep u
    rw [step_maxReqs] at this
    exact this

/-- C18: the quota bounds the stored state.  With `maxReqs >= 0`, in every state
reached from `NewLimiter` by any `Allow` and `GetStats` calls at arbitrary
timestamps, every identity's history has at most `maxReqs` entries, and every
`GetStats` result `(current, limit)` has `0 <= current <= limit = maxReqs`. -/
theorem stored_history_bounded (maxReqs window : Int) (hmax : 0 ≤ maxReqs)
    (ops : List Op) (userID : String) (now : Int) :
    ((histOf (exec (NewLimiter maxReqs window) ops) userID).length : Int) ≤ maxReqs ∧
    (GetStats (exec (NewLimiter maxReqs window) ops) userID now).1.2 = maxReqs ∧
    0 ≤ (GetStats (exec (NewLimiter maxReqs window) ops) userID now).1.1 ∧
    (GetStats (exec (NewLimiter maxReqs window) ops) userID now).1.1
      ≤ (GetStats (exec (NewLimiter maxReqs window) ops) userID now).1.2 := by
  have hlen := hist_length_invariant ops (NewLimiter maxReqs window)
    (by intro u; simpa [histOf, NewLimiter, mapGet] using hmax) userID
  have hm : (NewLimiter maxReqs window).maxReqs = maxReqs := rfl
  rw [hm] at hlen
  have hcount : (histOf (exec (NewLimiter maxReqs window) ops) userID).countP
      (inWindow (effectiveWindow (exec (NewLimiter maxReqs window) ops).window) now)
      ≤ (histOf (exec (NewLimiter maxReqs window) ops) userID).length :=
    List.countP_le_length _
  rw [GetStats_eq, exec_maxReqs, hm]
  refine ⟨hlen, rfl, ?_, ?_⟩
  · simp only [Int.ofNat_eq_coe]; omega
  · simp only [Int.ofNat_eq_coe]; omega

theorem stored_history_bounded_witness :
    (0 : Int) ≤ 2 ∧
    histOf (exec (NewLimiter 2 60)
      [Op.allow "u1" 50, Op.allow "u1" 10, Op.allow "u1" 200, Op.allow "u1" 20]) "u1"
      = [200, 20] ∧
    ((histOf (exec (NewLimiter 2 60)
      [Op.allow "u1" 50, Op.allow "u1" 10, Op.allow "u1" 200, Op.allow "u1" 20]) "u1").length
      : Int) ≤ 2 := by
  have h := stored_history_bounded 2 60 (by decide)
    [Op.allow "u1" 50, Op.allow "u1" 10, Op.allow "u1" 200, Op.allow "u1" 20] "u1" 20
  exact ⟨by decide, by decide, h.1⟩

/-! ## Concurrent first access -/

/-- With the entry there, the user section alone is the whole `Allow`. -/
theorem check_eq_Allow_of_present (l : Limiter) (userID : String) (now : Int)
    (h : (mapGet l.users userID).isSome = true) :
    checkUnderUserLock l userID now = Allow l userID now := by
  unfold Allow
  rw [resolveOrCreate_present l userID h]

theorem Allow_present (l : Limiter) (userID : String) (now : Int) :
    (mapGet (Allow l userID now).2.users userID).isSome = true := by
  rw [Allow_get]; rfl

/-- Once the entry exists, a schedule is the sequential run of its user
sections: registry sections change nothing and create nothing. -/
theorem sched_present (userID : String) (sched : List Section) :
    ∀ l : Limiter, (mapGet l.users userID).isSome = true →
      schedExec userID l sched = exec l ((userClocks sched).map (Op.allow userID)) ∧
      (schedResults userID l sched).map (fun p => Res.allowed p.2)
        = (trace l ((userClocks sched).map (Op.allow userID))).map Prod.snd ∧
      (schedResults userID l sched).map Prod.fst = sched.filterMap Section.userOf ∧
      schedCreations userID l sched = 0 := by
  induction sched with
  | nil => intro l _; simp [schedExec, schedResults, schedCreations, userClocks, exec, trace]
  | cons sec rest ih =>
    intro l hl
    cases sec with
    | registry g =>
      have hsame : runSection userID l (Section.registry g) = l :=
        resolveOrCreate_present l userID hl
      have hnot : (mapGet l.users userID).isNone = false := by
        cases hg : mapGet l.users userID with
        | none => simp [hg] at hl
        | some v => rfl
      obtain ⟨h1, h2, h3, h4⟩ := ih l hl
      have hclk : userClocks (Section.registry g :: rest) = userClocks rest := by
        simp [userClocks, Section.clock]
      refine ⟨?_, ?_, ?_, ?_⟩
      · simp only [schedExec, hsame, hclk]; exact h1
      · simp only [schedResults, hsame, hclk]; exact h2
      · simp only [schedResults, hsame, h3]
        simp [Section.userOf]
      · simp only [schedCreations, hsame, hnot, h4]
        simp
    | user g now =>
      have hchk := check_eq_Allow_of_present l userID now hl
      have hrun : runSection userID l (Section.user g now) = (Allow l userID now).2 := by
        simp only [runSection, hchk]
      obtain ⟨h1, h2, h3, h4⟩ := ih (Allow l userID now).2 (Allow_present l userID now)
      have hclk : userClocks (Section.user g now :: rest) = now :: userClocks rest := by
        simp [userClocks, Section.clock]
      refine ⟨?_, ?_, ?_, ?_⟩
      · simp only [schedExec, hrun, hclk, List.map_cons, exec, step]; exact h1
      · simp only [schedResults, hrun, hclk, List.map_cons, trace, step, hchk, h2]
        rfl
      · simp only [schedResults, hrun, List.map_cons, h3]
        simp [Section.userOf]
      · simp only [schedCreations, hrun, h4]

/-- A run of `Allow` calls on an identity that has an entry leaves the keys of the
registry as they are. -/
theorem mapKeys_exec_present (userID : String) (ts : List Int) :
    ∀ l : Limiter, userID ∈ mapKeys l.users →
      mapKeys (exec l (ts.map (Op.allow userID))).users = mapKeys l.users := by
  induction ts with
  | nil => intro l _; rfl
  | cons t rest ih =>
    intro l hl
    have hk := mapKeys_Allow_present l userID t hl
    simp only [List.map_cons, exec, step]
    rw [ih (Allow l userID t).2 (by rw [hk]; exact hl), hk]

/-- C14: concurrent first access.  `K` goroutines call `Allow` for an identity
without an entry, with `maxReqs = M < K`; each call is its registry section
followed by its user section, and the sections of different goroutines
interleave in any way.  The clock readings taken in the user sections are
non-decreasing along the schedule and span less than `window`.  Then under
every such schedule every goroutine gets its answer, exactly `M` calls return
`true` and `K - M` return `false`, exactly one registry section creates the
`UserLimit`, and the registry ends with exactly one entry for the identity. -/
theorem concurrent_first_access (l : Limiter) (userID : String) (K M : Nat)
    (sched : List Section) (hM : l.maxReqs = Int.ofNat M) (hMK : M < K)
    (hnew : mapGet l.users userID = none)
    (hsched : IsSchedule K sched)
    (hord : (userClocks sched).Pairwise (· ≤ ·))
    (hspan : ∀ first last, (userClocks sched).head? = some first →
      (userClocks sched).getLast? = some last → last - first < l.window) :
    ((schedResults userID l sched).map Prod.fst).Perm (List.range K) ∧
    ((schedResults userID l sched).map Prod.snd).count true = M ∧
    ((schedResults userID l sched).map Prod.snd).count false = K - M ∧
    (schedResults userID l sched).map Prod.snd
      = List.replicate M true ++ List.replicate (K - M) false ∧
    schedCreations userID l sched = 1 ∧
    (mapKeys (schedExec userID l sched).users).count userID = 1 := by
  obtain ⟨hreg, huser, hprog⟩ := hsched
  -- the first section of the schedule is a registry section
  cases sched with
  | nil =>
    have : (List.range K).length = 0 := by
      rw [← hreg.length_eq]; rfl
    simp at this
    omega
  | cons sec rest =>
    cases sec with
    | user g now => simp [inProgramOrder] at hprog
    | registry g =>
      have hl1 : (mapGet (resolveOrCreate l userID).users userID).isSome = true := by
        rw [resolve_get]; rfl
      obtain ⟨h1, h2, h3, h4⟩ := sched_present userID rest (resolveOrCreate l userID) hl1
      have hclk : userClocks (Section.registry g :: rest) = userClocks rest := by
        simp [userClocks, Section.clock]
      rw [hclk] at hord hspan
      have hlen : (userClocks rest).length = K := by
        have e1 : (userClocks rest).length = (rest.filterMap Section.userOf).length := by
          clear h1 h2 h3 h4 hord hspan hprog hreg huser hclk
          induction rest with
          | nil => rfl
          | cons s r ih => cases s <;> simp [userClocks, Section.clock, Section.userOf] at ih ⊢
                           <;> omega
        have e2 : (Section.registry g :: rest).filterMap Section.userOf
            = rest.filterMap Section.userOf := by simp [Section.userOf]
        rw [e2] at huser
        rw [e1, huser.length_eq, List.length_range]
      have hempty : histOf (resolveOrCreate l userID) userID = [] := by
        rw [histOf_resolveOrCreate]; simp [histOf, hnew]
      have hpair := span_of_sorted (userClocks rest) l.window hord hspan
      have hburst := burst_aux userID (userClocks rest) (resolveOrCreate l userID) M
        (by rw [hempty, resolveOrCreate_maxReqs, hM]; simp)
        (by rw [hempty]; simp)
        (by simpa using hpair)
      have hres : (schedResults userID l (Section.registry g :: rest))
          = schedResults userID (resolveOrCreate l userID) rest := rfl
      have hbools : (schedResults userID (resolveOrCreate l userID) rest).map Prod.snd
          = List.replicate M true ++ List.replicate (K - M) false := by
        have hinj : Function.Injective Res.allowed := fun a b h => by cases h; rfl
        apply List.map_injective_iff.mpr hinj
        rw [List.map_map]
        have : (Res.allowed ∘ Prod.snd) = (fun p : Nat × Bool => Res.allowed p.2) := rfl
        rw [this, h2, hburst.1, hlen, Nat.min_eq_right (le_of_lt hMK)]
        simp
      have hnotin : userID ∉ mapKeys l.users := by
        intro hin
        have := (mapGet_isSome_iff_mem_keys l.users userID).mpr hin
        simp [hnew] at this
      have hkeys1 : mapKeys (resolveOrCreate l userID).users = mapKeys l.users ++ [userID] := by
        unfold resolveOrCreate
        simp only [hnew, Option.isNone_none, if_true]
        exact mapKeys_mapSet_absent _ _ _ hnotin
      refine ⟨?_, ?_, ?_, ?_, ?_, ?_⟩
      · rw [hres, h3]
        have e2 : (Section.registry g :: rest).filterMap Section.userOf
            = rest.filterMap Section.userOf := by simp [Section.userOf]
        rw [← e2]; exact huser
      · rw [hres, hbools]
        simp [List.count_append, List.count_replicate]
      · rw [hres, hbools]
        simp [List.count_append, List.count_replicate]
      · rw [hres, hbools]
      · show (if (mapGet l.users userID).isNone then 1 else 0)
            + schedCreations userID (resolveOrCreate l userID) rest = 1
        rw [h4, hnew]; rfl
      · show (mapKeys (schedExec userID (resolveOrCreate l userID) rest).users).count userID = 1
        rw [h1, mapKeys_exec_present userID (userClocks rest) _ (by rw [hkeys1]; simp),
          hkeys1, List.count_append]
        rw [List.count_eq_zero_of_not_mem hnotin]
        simp

theorem concurrent_first_access_witness :
    (NewLimiter 2 60).maxReqs = Int.ofNat 2 ∧ 2 < 3 ∧
    IsSchedule 3 [Section.registry 0, Section.registry 1, Section.user 1 5,
      Section.registry 2, Section.user 0 6, Section.user 2 7] ∧
    schedResults "u1" (NewLimiter 2 60) [Section.registry 0, Section.registry 1,
      Section.user 1 5, Section.registry 2, Section.user 0 6, Section.user 2 7]
      = [(1, true), (0, true), (2, false)] ∧
    ((schedResults "u1" (NewLimiter 2 60) [Section.registry 0, Section.registry 1,
      Section.user 1 5, Section.registry 2, Section.user 0 6, Section.user 2 7]).map
        Prod.snd).count true = 2 ∧
    schedCreations "u1" (NewLimiter 2 60) [Section.registry 0, Section.registry 1,
      Section.user 1 5, Section.registry 2, Section.user 0 6, Section.user 2 7] = 1 := by
  have h := concurrent_first_access (NewLimiter 2 60) "u1" 3 2
    [Section.registry 0, Section.registry 1, Section.user 1 5,
      Section.registry 2, Section.user 0 6, Section.user 2 7]
    (by decide) (by decide) (by decide) (by decide) (by decide)
    (by intro first last h1 h2; cases h1; cases h2; decide)
  exact ⟨by decide, by decide, by decide, by decide, h.2.1, h.2.2.2.2.1⟩

end RateLimiter

/-! ## The retry loop of `fetch` -/

namespace Fetch

/-- The loop stops at the first successful attempt and returns its response. -/
theorem boundedLoop_first_success (callAPI : String → Nat → Outcome) (url : String)
    (resp : Response) (remaining : Nat) :
    ∀ (i k : Nat) (err : Option String), i ≤ k → k < i + remaining →
      (∀ j, i ≤ j → j < k → (callAPI url j).isFailure = true) →
      callAPI url k = Outcome.success resp →
      boundedLoop callAPI url remaining i err
        = (LoopExit.returned resp, List.range' i (k - i + 1)) := by
  induction remaining with
  | zero => intro i k err h1 h2; omega
  | succ m ih =>
    intro i k err hik hk hfail hsucc
    by_cases hki : k = i
    · subst hki
      simp [boundedLoop, hsucc, List.range']
    · have hfi := hfail i le_rfl (by omega)
      cases hc : callAPI url i with
      | success r => simp [hc, Outcome.isFailure] at hfi
      | failure e =>
        have hrec := ih (i + 1) k (some e) (by omega) (by omega)
          (fun j hj1 hj2 => hfail j (by omega) hj2) hsucc
        have hlen : k - i + 1 = (k - (i + 1) + 1) + 1 := by omega
        rw [hlen]
        simp only [boundedLoop, hc, hrec]
        rfl

/-- When every attempt fails the loop runs all its iterations and ends with the
last error in `err`. -/
theorem boundedLoop_all_fail (callAPI : String → Nat → Outcome) (url : String)
    (remaining : Nat) :
    ∀ (i : Nat) (err : Option String),
      (∀ j, i ≤ j → j < i + remaining → (callAPI url j).isFailure = true) →
      (boundedLoop callAPI url remaining i err).2 = List.range' i remaining ∧
      (remaining = 0 → (boundedLoop callAPI url remaining i err).1 = LoopExit.fellThrough err) ∧
      (∀ e, 0 < remaining → callAPI url (i + remaining - 1) = Outcome.failure e →
        (boundedLoop callAPI url remaining i err).1 = LoopExit.fellThrough (some e)) := by
  induction remaining with
  | zero => intro i err _; simp [boundedLoop]
  | succ m ih =>
    intro i err hfail
    have hfi := hfail i le_rfl (by omega)
    cases hc : callAPI url i with
    | success r => simp [hc, Outcome.isFailure] at hfi
    | failure e =>
      have hrec := ih (i + 1) (some e) (fun j hj1 hj2 => hfail j (by omega) (by omega))
      refine ⟨?_, ?_, ?_⟩
      · simp only [boundedLoop, hc, hrec.1, List.range']
      · intro h; omega
      · intro e' _ hlast
        simp only [boundedLoop, hc]
        cases m with
        | zero =>
          have : e' = e := by
            have h0 : i + (0 + 1) - 1 = i := by omega
            rw [h0, hc] at hlast
            exact (Outcome.failure.inj hlast).symm
          rw [this]
          exact hrec.2.1 rfl
        | succ m' =>
          apply hrec.2.2 e' (by omega)
          have h1 : i + 1 + (m' + 1) - 1 = i + (m' + 1 + 1) - 1 := by omega
          rw [h1]; exact hlast

/-- The loop never calls `callAPI` more often than it has iterations, and it
falls through exactly when every attempt fails. -/
theorem boundedLoop_calls (callAPI : String → Nat → Outcome) (url : String)
    (remaining : Nat) :
    ∀ (i : Nat) (err : Option String),
      (boundedLoop callAPI url remaining i err).2.length ≤ remaining ∧
      ((∃ e, (boundedLoop callAPI url remaining i err).1 = LoopExit.fellThrough e) ↔
        ∀ j, i ≤ j → j < i + remaining → (callAPI url j).isFailure = true) := by
  induction remaining with
  | zero =>
    intro i err
    refine ⟨by simp [boundedLoop], ?_⟩
    constructor
    · intro _ j h1 h2; omega
    · intro _; exact ⟨err, rfl⟩
  | succ m ih =>
    intro i err
    cases hc : callAPI url i with
    | success r =>
      refine ⟨by simp [boundedLoop, hc], ?_⟩
      constructor
      · rintro ⟨e, he⟩; simp [boundedLoop, hc] at he
      · intro h
        have := h i le_rfl (by omega)
        simp [hc, Outcome.isFailure] at this
    | failure e =>
      have hrec := ih (i + 1) (some e)
      refine ⟨by simp only [boundedLoop, hc, List.length_cons]; omega, ?_⟩
      simp only [boundedLoop, hc]
      rw [hrec.2]
      constructor
      · intro h j hj1 hj2
        by_cases hji : j = i
        · subst hji; simp [hc, Outcome.isFailure]
        · exact h j (by omega) (by omega)
      · intro h j hj1 hj2
        exact h j (by omega) (by omega)

theorem wrapInt64_of_isInt64 (x : Int) (h1 : RateLimiter.minInt64 ≤ x)
    (h2 : x ≤ RateLimiter.maxInt64) : RateLimiter.wrapInt64 x = x := by
  unfold RateLimiter.wrapInt64
  unfold RateLimiter.minInt64 at h1
  unfold RateLimiter.maxInt64 at h2
  omega

/-- Below `math.MaxInt64` the counter never wraps: with `retries = i + m - 1` the
loop runs `m` iterations and then ends at test number `m + 1`. -/
theorem fetchLoop_eq_boundedLoop (callAPI : String → Nat → Outcome) (url : String)
    (retries : Int) (hlt : retries < RateLimiter.maxInt64) (m : Nat) :
    ∀ (i fuel : Nat) (err : Option String), retries = (i : Int) + m - 1 → m + 1 ≤ fuel →
      fetchLoop callAPI url retries fuel i i err
        = (some (boundedLoop callAPI url m i err).1, (boundedLoop callAPI url m i err).2) := by
  induction m with
  | zero =>
    intro i fuel err hr hf
    cases fuel with
    | zero => omega
    | succ f =>
      have hgt : ¬ ((i : Int) ≤ retries) := by omega
      simp [fetchLoop, boundedLoop, hgt]
  | succ m ih =>
    intro i fuel err hr hf
    cases fuel with
    | zero => omega
    | succ f =>
      have hle : (i : Int) ≤ retries := by omega
      have hwrap : RateLimiter.wrapInt64 ((i : Int) + 1) = ((i + 1 : Nat) : Int) := by
        rw [wrapInt64_of_isInt64]
        · push_cast; rfl
        · unfold RateLimiter.minInt64; omega
        · omega
      cases hc : callAPI url i with
      | success r => simp [fetchLoop, boundedLoop, hle, hc]
      | failure e =>
        have hrec := ih (i + 1) f (some e) (by push_cast; omega) (by omega)
        simp only [fetchLoop, boundedLoop, hle, if_true, hc, hwrap, hrec]

theorem fetch_eq_boundedLoop (callAPI : String → Nat → Outcome) (url : String)
    (retries : Int) (h0 : 0 ≤ retries) (hlt : retries < RateLimiter.maxInt64) :
    fetch callAPI url retries
      = afterLoop retries (some (boundedLoop callAPI url retries.toNat 1 none).1,
          (boundedLoop callAPI url retries.toNat 1 none).2) := by
  unfold fetch
  have := fetchLoop_eq_boundedLoop callAPI url retries hlt retries.toNat 1
    (retries.toNat + 1) none (by push_cast; omega) le_rfl
  simp only [Nat.cast_one] at this
  rw [this]

theorem fetch_of_returned (callAPI : String → Nat → Outcome) (url : String) (retries : Int)
    (h0 : 0 ≤ retries) (hlt : retries < RateLimiter.maxInt64)
    (resp : Response) (calls : List Nat)
    (h : boundedLoop callAPI url retries.toNat 1 none = (LoopExit.returned resp, calls)) :
    fetch callAPI url retries = (FetchResult.ok resp, calls) := by
  rw [fetch_eq_boundedLoop callAPI url retries h0 hlt, h]; rfl

theorem fetch_of_fellThrough_some (callAPI : String → Nat → Outcome) (url : String)
    (retries : Int) (h0 : 0 ≤ retries) (hlt : retries < RateLimiter.maxInt64)
    (e : String) (calls : List Nat)
    (h : boundedLoop callAPI url retries.toNat 1 none
      = (LoopExit.fellThrough (some e), calls)) :
    fetch callAPI url retries = (FetchResult.error (gaveUp retries e), calls) := by
  rw [fetch_eq_boundedLoop callAPI url retries h0 hlt, h]; rfl

theorem fetch_calls (callAPI : String → Nat → Outcome) (url : String) (retries : Int)
    (h0 : 0 ≤ retries) (hlt : retries < RateLimiter.maxInt64) :
    (fetch callAPI url retries).2 = (boundedLoop callAPI url retries.toNat 1 none).2 := by
  rw [fetch_eq_boundedLoop callAPI url retries h0 hlt]
  rcases boundedLoop callAPI url retries.toNat 1 none with ⟨exit, calls⟩
  cases exit with
  | returned r => rfl
  | fellThrough err => cases err <;> rfl

/-- When every one of the `retries >= 1` attempts fails, `fetch` gives up with
the message of the last attempt. -/
theorem fetch_all_fail (callAPI : String → Nat → Outcome) (url : String) (retries : Int)
    (hpos : 1 ≤ retries) (hlt : retries < RateLimiter.maxInt64)
    (hfail : ∀ j : Nat, 1 ≤ j → (j : Int) ≤ retries → (callAPI url j).isFailure = true)
    (e : String) (hlast : callAPI url retries.toNat = Outcome.failure e) :
    fetch callAPI url retries
      = (FetchResult.error ("gave up after " ++ toString retries ++ " tries: " ++ e),
          List.range' 1 retries.toNat) := by
  have hall := boundedLoop_all_fail callAPI url retries.toNat 1 none
    (fun j hj1 hj2 => hfail j hj1 (by omega))
  have hn : 0 < retries.toNat := by omega
  have hexit := hall.2.2 e hn (by
    have : 1 + retries.toNat - 1 = retries.toNat := by omega
    rw [this]; exact hlast)
  rw [fetch_of_fellThrough_some callAPI url retries (by omega) hlt e
    (List.range' 1 retries.toNat) (Prod.ext hexit hall.1)]
  rfl

/-- The retry loop of `fetch`, for every `retries` with
`1 <= retries < math.MaxInt64` and every sequence of `callAPI` outcomes.
`fetch` makes attempts 1, 2, ... in order and stops at the first successful
one, returning that attempt's response with a nil error; it never makes more
than `retries` attempts; when all of the first `retries` attempts fail it
returns a nil response and the error
`gave up after <retries> tries: <last error>`; it returns an error if and only
if all of the first `retries` attempts fail; and it always returns. -/
theorem fetch_retry_loop (callAPI : String → Nat → Outcome) (url : String) (retries : Int)
    (hpos : 1 ≤ retries) (hlt : retries < RateLimiter.maxInt64) :
    (∀ (k : Nat) (resp : Response), 1 ≤ k → (k : Int) ≤ retries →
      (∀ j, 1 ≤ j → j < k → (callAPI url j).isFailure = true) →
      callAPI url k = Outcome.success resp →
      fetch callAPI url retries = (FetchResult.ok resp, List.range' 1 k)) ∧
    (((fetch callAPI url retries).2.length : Int) ≤ retries) ∧
    (∀ e, (∀ j : Nat, 1 ≤ j → (j : Int) ≤ retries → (callAPI url j).isFailure = true) →
      callAPI url retries.toNat = Outcome.failure e →
      fetch callAPI url retries
        = (FetchResult.error ("gave up after " ++ toString retries ++ " tries: " ++ e),
            List.range' 1 retries.toNat)) ∧
    ((∃ msg, (fetch callAPI url retries).1 = FetchResult.error msg) ↔
      ∀ j : Nat, 1 ≤ j → (j : Int) ≤ retries → (callAPI url j).isFailure = true) ∧
    (fetch callAPI url retries).1 ≠ FetchResult.nilDereference ∧
    (fetch callAPI url retries).1 ≠ FetchResult.stillLooping := by
  have h0 : 0 ≤ retries := by omega
  have hcalls := boundedLoop_calls callAPI url retries.toNat 1 none
  have hallfail : (∀ j : Nat, 1 ≤ j → (j : Int) ≤ retries → (callAPI url j).isFailure = true) →
      ∃ msg, fetch callAPI url retries
        = (FetchResult.error msg, List.range' 1 retries.toNat) := by
    intro hfail
    have hl := hfail retries.toNat (by omega) (by omega)
    cases hc : callAPI url retries.toNat with
    | success r => simp [hc, Outcome.isFailure] at hl
    | failure e => exact ⟨_, fetch_all_fail callAPI url retries hpos hlt hfail e hc⟩
  have hcases : ∀ P : FetchResult → Prop,
      (∀ r, P (FetchResult.ok r)) → (∀ msg, P (FetchResult.error msg)) →
      P (fetch callAPI url retries).1 := by
    intro P hok herr
    rcases hloop : boundedLoop callAPI url retries.toNat 1 none with ⟨exit, calls⟩
    cases exit with
    | returned r =>
      rw [fetch_of_returned callAPI url retries h0 hlt r calls hloop]
      exact hok r
    | fellThrough err =>
      have hfail : ∀ j : Nat, 1 ≤ j → (j : Int) ≤ retries →
          (callAPI url j).isFailure = true := by
        intro j hj1 hj2
        exact hcalls.2.mp ⟨err, by rw [hloop]⟩ j hj1 (by omega)
      obtain ⟨msg, h⟩ := hallfail hfail
      rw [h]
      exact herr msg
  refine ⟨?_, ?_, ?_, ?_, ?_, ?_⟩
  · intro k resp hk1 hk2 hfail hsucc
    apply fetch_of_returned callAPI url retries h0 hlt
    have := boundedLoop_first_success callAPI url resp retries.toNat 1 k none hk1 (by omega)
      hfail hsucc
    rw [this]
    have : k - 1 + 1 = k := by omega
    rw [this]
  · rw [fetch_calls callAPI url retries h0 hlt]
    have := hcalls.1
    omega
  · intro e hfail hlast
    exact fetch_all_fail callAPI url retries hpos hlt hfail e hlast
  · constructor
    · rintro ⟨msg, hmsg⟩ j hj1 hj2
      apply hcalls.2.mp _ j hj1 (by omega)
      rcases hloop : boundedLoop callAPI url retries.toNat 1 none with ⟨exit, calls⟩
      cases exit with
      | returned r =>
        rw [fetch_of_returned callAPI url retries h0 hlt r calls hloop] at hmsg
        cases hmsg
      | fellThrough err => exact ⟨err, rfl⟩
    · intro hfail
      obtain ⟨msg, h⟩ := hallfail hfail
      exact ⟨msg, by rw [h]⟩
  · exact hcases (fun r => r ≠ FetchResult.nilDereference)
      (fun r h => by cases h) (fun msg h => by cases h)
  · exact hcases (fun r => r ≠ FetchResult.stillLooping)
      (fun r h => by cases h) (fun msg h => by cases h)

theorem fetch_retry_loop_witness :
    (1 : Int) ≤ 3 ∧ (3 : Int) < RateLimiter.maxInt64 ∧
    fetch (fun _ k => if k = 2 then Outcome.success ⟨true, "u", ⟨"Got the data!", "t", 7⟩⟩
        else Outcome.failure "couldn't fetch from u") "u" 3
      = (FetchResult.ok ⟨true, "u", ⟨"Got the data!", "t", 7⟩⟩, [1, 2]) ∧
    ((fetch (fun _ k => if k = 2 then Outcome.success ⟨true, "u", ⟨"Got the data!", "t", 7⟩⟩
        else Outcome.failure "couldn't fetch from u") "u" 3).2.length : Int) ≤ 3 := by
  have h := fetch_retry_loop
    (fun _ k => if k = 2 then Outcome.success ⟨true, "u", ⟨"Got the data!", "t", 7⟩⟩
      else Outcome.failure "couldn't fetch from u") "u" 3 (by decide) (by decide)
  exact ⟨by decide, by decide,
    h.1 2 ⟨true, "u", ⟨"Got the data!", "t", 7⟩⟩ (by decide) (by decide)
    (by intro j h1 h2; have : j = 1 := by omega
        subst this; rfl) rfl, h.2.1⟩

/-- The give-up path at a concrete input: three failing attempts with
`retries = 3` return the message spelled out, after calls 1, 2, 3. -/
theorem fetch_gives_up_after_three :
    fetch (fun _ k => Outcome.failure (if k = 3 then "last error" else "earlier error"))
        "u" 3
      = (FetchResult.error "gave up after 3 tries: last error", [1, 2, 3]) := by
  have h := (fetch_retry_loop
    (fun _ k => Outcome.failure (if k = 3 then "last error" else "earlier error"))
    "u" 3 (by decide) (by decide)).2.2.1 "last error"
    (by intro j _ _; rfl) (by decide)
  exact h.trans (by decide)

/-- With `retries <= 0` the loop body never runs, `err` is still nil after the
loop, and building the final message calls `Error()` on it. -/
theorem fetch_nonpositive_retries (callAPI : String → Nat → Outcome) (url : String)
    (retries : Int) (h : retries ≤ 0) :
    fetch callAPI url retries = (FetchResult.nilDereference, []) := by
  have h0 : retries.toNat = 0 := by omega
  have hgt : ¬ ((1 : Int) ≤ retries) := by omega
  unfold fetch
  rw [h0]
  simp [fetchLoop, hgt, afterLoop]

/-- C17 fails in the code: `fetch(url, 0)` (and `fetch(url, -1)`) makes no
attempt and ends in the nil dereference of `err.Error()`, whatever `callAPI`
would return; with three failing attempts and `retries = 3` it returns the
`gave up` error instead. -/
theorem fetch_zero_retries_nil_dereference (callAPI : String → Nat → Outcome)
    (url : String) :
    fetch callAPI url 0 = (FetchResult.nilDereference, []) ∧
    fetch callAPI url (-1) = (FetchResult.nilDereference, []) ∧
    fetch (fun _ _ => Outcome.failure "couldn't fetch from u") "u" 3
      = (FetchResult.error "gave up after 3 tries: couldn't fetch from u", [1, 2, 3]) := by
  refine ⟨fetch_nonpositive_retries callAPI url 0 (by decide),
    fetch_nonpositive_retries callAPI url (-1) (by decide), ?_⟩
  decide

end Fetch

/-! ## Text statistics -/

namespace TextStats

theorem freqGet_freqSet_same (m : List (String × Int)) (k : String) (v : Int) :
    freqGet (freqSet m k v) k = v := by
  induction m with
  | nil => simp [freqSet, freqGet]
  | cons p rest ih =>
    obtain ⟨k', v'⟩ := p
    by_cases h : k' = k <;> simp [freqSet, freqGet, h, ih]

theorem freqGet_freqSet_other (m : List (String × Int)) (k k' : String) (v : Int)
    (h : k' ≠ k) : freqGet (freqSet m k v) k' = freqGet m k' := by
  induction m with
  | nil => simp [freqSet, freqGet, Ne.symm h]
  | cons p rest ih =>
    obtain ⟨k₀, v₀⟩ := p
    by_cases h₀ : k₀ = k
    · subst h₀
      simp [freqSet, freqGet, Ne.symm h]
    · by_cases h₁ : k₀ = k'
      · subst h₁
        simp [freqSet, freqGet, h₀]
      · simp [freqSet, freqGet, h₀, h₁, ih]

/-- A store replaces the value read at the key, so the sum of all values moves
by the difference. -/
theorem freqSet_sum (m : List (String × Int)) (k : String) (v : Int) :
    ((freqSet m k v).map Prod.snd).sum = (m.map Prod.snd).sum - freqGet m k + v := by
  induction m with
  | nil => simp [freqSet, freqGet]
  | cons p rest ih =>
    obtain ⟨k', v'⟩ := p
    by_cases h : k' = k
    · simp [freqSet, freqGet, h]; ring
    · simp [freqSet, freqGet, h, ih]; ring

theorem mem_freqSet (m : List (String × Int)) (k : String) (v : Int) (p : String × Int)
    (hp : p ∈ freqSet m k v) : p = (k, v) ∨ p ∈ m := by
  induction m with
  | nil => left; simpa [freqSet] using hp
  | cons q rest ih =>
    obtain ⟨k', v'⟩ := q
    by_cases h : k' = k
    · simp only [freqSet, h, if_true, List.mem_cons] at hp
      rcases hp with hp | hp
      · exact Or.inl hp
      · exact Or.inr (List.mem_cons_of_mem _ hp)
    · simp only [freqSet, h, if_false, List.mem_cons] at hp
      rcases hp with hp | hp
      · right; rw [hp]; exact List.mem_cons_self _ _
      · rcases ih hp with h' | h'
        · exact Or.inl h'
        · exact Or.inr (List.mem_cons_of_mem _ h')

/-- A key that reads as 0 in a map whose values are all positive is absent. -/
theorem not_mem_keys_of_freqGet_zero (m : List (String × Int)) (k : String)
    (hpos : ∀ p ∈ m, 1 ≤ p.2) (h0 : freqGet m k = 0) : k ∉ m.map Prod.fst := by
  induction m with
  | nil => simp
  | cons q rest ih =>
    obtain ⟨k', v'⟩ := q
    have hv : 1 ≤ v' := hpos (k', v') (List.mem_cons_self _ _)
    by_cases h : k' = k
    · simp only [freqGet, h, if_true] at h0
      omega
    · simp only [freqGet, h, if_false] at h0
      have := ih (fun p hp => hpos p (List.mem_cons_of_mem _ hp)) h0
      simp only [List.map_cons, List.mem_cons, not_or]
      exact ⟨fun e => h e.symm, this⟩

theorem freqSet_keys_absent (m : List (String × Int)) (k : String) (v : Int)
    (h : k ∉ m.map Prod.fst) :
    (freqSet m k v).map Prod.fst = m.map Prod.fst ++ [k] := by
  induction m with
  | nil => simp [freqSet]
  | cons q rest ih =>
    obtain ⟨k', v'⟩ := q
    simp only [List.map_cons, List.mem_cons, not_or] at h
    have hk : ¬ k' = k := fun e => h.1 e.symm
    simp [freqSet, hk, ih h.2]

theorem freqSet_keys_present (m : List (String × Int)) (k : String) (v : Int)
    (h : k ∈ m.map Prod.fst) :
    (freqSet m k v).map Prod.fst = m.map Prod.fst := by
  induction m with
  | nil => simp at h
  | cons q rest ih =>
    obtain ⟨k', v'⟩ := q
    by_cases hk : k' = k
    · simp [freqSet, hk]
    · simp only [List.map_cons, List.mem_cons] at h
      rcases h with e | e
      · exact absurd e.symm hk
      · simp [freqSet, hk, ih e]

/-- In a map with distinct keys every entry holds the value read at its key. -/
theorem freqGet_of_mem (m : List (String × Int)) (hnd : (m.map Prod.fst).Nodup)
    (p : String × Int) (hp : p ∈ m) : freqGet m p.1 = p.2 := by
  induction m with
  | nil => simp at hp
  | cons q rest ih =>
    obtain ⟨k', v'⟩ := q
    simp only [List.map_cons, List.nodup_cons] at hnd
    rcases List.mem_cons.mp hp with e | e
    · rw [e]; simp [freqGet]
    · have hne : ¬ k' = p.1 := by
        intro hk
        apply hnd.1
        rw [hk]
        exact List.mem_map_of_mem Prod.fst e
      simp only [freqGet, hne, if_false]
      exact ih hnd.2 e

theorem isDuplicate_eq (existing : List String) (w : String) :
    isDuplicate existing w = decide (w ∈ existing) := by
  induction existing with
  | nil => simp [isDuplicate]
  | cons e rest ih =>
    by_cases h : e = w
    · simp [isDuplicate, h]
    · have h' : ¬ w = e := fun x => h x.symm
      simp [isDuplicate, h, h', ih]

theorem mem_firstOccurrences (ws : List String) (x : String) :
    x ∈ firstOccurrences ws ↔ x ∈ ws := by
  induction ws with
  | nil => simp [firstOccurrences]
  | cons w ws ih =>
    simp only [firstOccurrences, List.mem_cons, List.mem_filter, ih, decide_eq_true_eq]
    constructor
    · rintro (h | h)
      · exact Or.inl h
      · exact Or.inr h.1
    · rintro (h | h)
      · exact Or.inl h
      · by_cases hx : x = w
        · exact Or.inl hx
        · exact Or.inr ⟨h, hx⟩

theorem nodup_firstOccurrences (ws : List String) : (firstOccurrences ws).Nodup := by
  induction ws with
  | nil => simp [firstOccurrences]
  | cons w ws ih =>
    simp only [firstOccurrences, List.nodup_cons, List.mem_filter, decide_eq_true_eq]
    exact ⟨fun h => h.2 rfl, ih.filter _⟩

theorem firstOccurrences_snoc (ws : List String) (w : String) :
    firstOccurrences (ws ++ [w])
      = if w ∈ ws then firstOccurrences ws else firstOccurrences ws ++ [w] := by
  induction ws with
  | nil => simp [firstOccurrences]
  | cons a ws ih =>
    have e1 : firstOccurrences (a :: (ws ++ [w]))
        = a :: (firstOccurrences (ws ++ [w])).filter (fun x => decide (x ≠ a)) := rfl
    have e2 : firstOccurrences (a :: ws)
        = a :: (firstOccurrences ws).filter (fun x => decide (x ≠ a)) := rfl
    rw [List.cons_append, e1, e2, ih]
    by_cases hwa : w = a
    · subst hwa
      by_cases hw : w ∈ ws
      · simp [hw]
      · simp [hw, List.filter_append]
    · by_cases hw : w ∈ ws
      · simp [hw]
      · simp [hw, hwa, List.filter_append]

theorem byteLen_nonneg (s : String) : 0 ≤ byteLen s := by
  simp [byteLen]

theorem maxLength_nonneg (ws : List String) : 0 ≤ maxLength ws := by
  induction ws with
  | nil => simp [maxLength]
  | cons w ws ih => simp only [maxLength]; exact le_max_of_le_right ih

theorem le_maxLength (ws : List String) : ∀ x ∈ ws, byteLen x ≤ maxLength ws := by
  induction ws with
  | nil => intro x hx; simp at hx
  | cons w ws ih =>
    intro x hx
    simp only [maxLength]
    rcases List.mem_cons.mp hx with h | h
    · rw [h]; exact le_max_left _ _
    · exact le_max_of_le_right (ih x h)

theorem maxLength_snoc (ws : List String) (w : String) :
    maxLength (ws ++ [w]) = max (maxLength ws) (byteLen w) := by
  induction ws with
  | nil =>
    simp only [List.nil_append, maxLength]
    rw [max_comm]
  | cons a ws ih =>
    have e : maxLength (a :: (ws ++ [w])) = max (byteLen a) (maxLength (ws ++ [w])) := rfl
    rw [List.cons_append, e, ih]
    simp only [maxLength, max_assoc]

/-- A non-empty list has a word of the largest length. -/
theorem exists_maxLength (ws : List String) (hne : ws ≠ []) :
    ∃ x ∈ ws, byteLen x = maxLength ws := by
  induction ws with
  | nil => exact absurd rfl hne
  | cons w ws ih =>
    by_cases hws : ws = []
    · subst hws
      refine ⟨w, List.mem_cons_self _ _, ?_⟩
      simp only [maxLength]
      exact (max_eq_left (byteLen_nonneg w)).symm
    · obtain ⟨x, hx, hxl⟩ := ih hws
      simp only [maxLength]
      by_cases hle : maxLength ws ≤ byteLen w
      · exact ⟨w, List.mem_cons_self _ _, (max_eq_left hle).symm⟩
      · refine ⟨x, List.mem_cons_of_mem _ hx, ?_⟩
        rw [hxl]; exact (max_eq_right (le_of_not_le hle)).symm

theorem wordStep_WordFrequency (ToLower : String → String) (st : LoopState) (word : String) :
    (wordStep ToLower st word).WordFrequency
      = freqSet st.WordFrequency (ToLower word)
          (freqGet st.WordFrequency (ToLower word) + 1) := by
  unfold wordStep; dsimp only; split_ifs <;> rfl

theorem wordStep_totalLetters (ToLower : String → String) (st : LoopState) (word : String) :
    (wordStep ToLower st word).totalLetters = st.totalLetters + byteLen (ToLower word) := by
  unfold wordStep; dsimp only; split_ifs <;> rfl

theorem wordStep_maxWordLength (ToLower : String → String) (st : LoopState) (word : String) :
    (wordStep ToLower st word).maxWordLength
      = max st.maxWordLength (byteLen (ToLower word)) := by
  unfold wordStep; dsimp only
  split_ifs with h1 h2
  · exact (max_eq_right (le_of_lt h1)).symm
  · exact (max_eq_left (le_of_eq h2)).symm
  · exact (max_eq_left (le_of_not_lt h1)).symm
  · exact (max_eq_left (le_of_not_lt h1)).symm

theorem wordStep_LongestWords (ToLower : String → String) (st : LoopState) (word : String) :
    (wordStep ToLower st word).LongestWords
      = if st.maxWordLength < byteLen (ToLower word) then [ToLower word]
        else if byteLen (ToLower word) = st.maxWordLength then
          if ToLower word ∈ st.LongestWords then st.LongestWords
          else st.LongestWords ++ [ToLower word]
        else st.LongestWords := by
  unfold wordStep; dsimp only
  rw [isDuplicate_eq]
  split_ifs <;> simp_all

/-- What the word loop has computed after any list of words. -/
theorem loop_invariant (ToLower : String → String) (words : List String) :
    (∀ k, freqGet (words.foldl (wordStep ToLower) initialState).WordFrequency k
        = Int.ofNat ((words.map ToLower).count k)) ∧
    (words.foldl (wordStep ToLower) initialState).WordFrequency.map Prod.fst
        = firstOccurrences (words.map ToLower) ∧
    (∀ p ∈ (words.foldl (wordStep ToLower) initialState).WordFrequency, 1 ≤ p.2) ∧
    ((words.foldl (wordStep ToLower) initialState).WordFrequency.map Prod.snd).sum
        = Int.ofNat words.length ∧
    (words.foldl (wordStep ToLower) initialState).totalLetters
        = ((words.map ToLower).map byteLen).sum ∧
    (words.foldl (wordStep ToLower) initialState).maxWordLength
        = maxLength (words.map ToLower) ∧
    (words.foldl (wordStep ToLower) initialState).LongestWords
        = firstOccurrences ((words.map ToLower).filter
            (fun x => decide (byteLen x = maxLength (words.map ToLower)))) := by
  induction words using List.reverseRecOn with
  | nil =>
    simp [initialState, freqGet, firstOccurrences, maxLength]
  | append_singleton ws w ih =>
    obtain ⟨hget, hkeys, hpos, hsum, htot, hmax, hlong⟩ := ih
    simp only [List.foldl_append, List.foldl_cons, List.foldl_nil, List.map_append,
      List.map_cons, List.map_nil]
    refine ⟨?_, ?_, ?_, ?_, ?_, ?_, ?_⟩
    · intro k
      rw [wordStep_WordFrequency, List.count_append]
      by_cases hk : k = ToLower w
      · subst hk
        rw [freqGet_freqSet_same, hget]
        simp
      · rw [freqGet_freqSet_other _ _ _ _ hk, hget]
        have : List.count k [ToLower w] = 0 := by
          simp [List.count_cons, Ne.symm hk]
        simp [this]
    · rw [wordStep_WordFrequency, firstOccurrences_snoc]
      by_cases hin : ToLower w ∈ ws.map ToLower
      · have hin' : ToLower w ∈ (ws.foldl (wordStep ToLower) initialState).WordFrequency.map
            Prod.fst := by
          rw [hkeys]; exact (mem_firstOccurrences _ _).mpr hin
        rw [freqSet_keys_present _ _ _ hin', hkeys, if_pos hin]
      · have hin' : ToLower w ∉ (ws.foldl (wordStep ToLower) initialState).WordFrequency.map
            Prod.fst := by
          rw [hkeys]; exact fun h => hin ((mem_firstOccurrences _ _).mp h)
        rw [freqSet_keys_absent _ _ _ hin', hkeys, if_neg hin]
    · intro p hp
      rw [wordStep_WordFrequency] at hp
      rcases mem_freqSet _ _ _ p hp with h | h
      · rw [h]
        have := hget (ToLower w)
        simp only [Int.ofNat_eq_coe] at this
        show 1 ≤ freqGet _ (ToLower w) + 1
        omega
      · exact hpos p h
    · rw [wordStep_WordFrequency, freqSet_sum, hsum]
      simp only [Int.ofNat_eq_coe, List.length_append, List.length_singleton]
      push_cast; ring
    · rw [wordStep_totalLetters, htot]
      simp
    · rw [wordStep_maxWordLength, hmax, maxLength_snoc]
    · rw [wordStep_LongestWords, hmax, hlong, maxLength_snoc, List.filter_append]
      have hle := le_maxLength (ws.map ToLower)
      by_cases h1 : maxLength (ws.map ToLower) < byteLen (ToLower w)
      · -- a new longest word: nothing seen so far is as long
        have hnone : (ws.map ToLower).filter
            (fun x => decide (byteLen x = max (maxLength (ws.map ToLower)) (byteLen (ToLower w))))
            = [] := by
          apply List.filter_eq_nil_iff.mpr
          intro x hx
          have := hle x hx
          rw [max_eq_right (le_of_lt h1)]
          simp only [decide_eq_true_eq]
          omega
        rw [if_pos h1, hnone]
        simp [max_eq_right (le_of_lt h1), firstOccurrences]
      · have hmaxeq : max (maxLength (ws.map ToLower)) (byteLen (ToLower w))
            = maxLength (ws.map ToLower) := max_eq_left (le_of_not_lt h1)
        rw [if_neg h1, hmaxeq]
        by_cases h2 : byteLen (ToLower w) = maxLength (ws.map ToLower)
        · rw [if_pos h2]
          have hw : [ToLower w].filter
              (fun x => decide (byteLen x = maxLength (ws.map ToLower))) = [ToLower w] := by
            simp [h2]
          rw [hw, firstOccurrences_snoc]
          simp only [mem_firstOccurrences]
        · rw [if_neg h2]
          have hw : [ToLower w].filter
              (fun x => decide (byteLen x = maxLength (ws.map ToLower))) = [] := by
            simp [h2]
          rw [hw, List.append_nil]

theorem AnalyzeText_LongestWords (Fields : String → List String)
    (ToLower : String → String) (round64 : ℚ → ℚ) (text : String) :
    (AnalyzeText Fields ToLower round64 text).LongestWords
      = ((Fields text).foldl (wordStep ToLower) initialState).LongestWords := by
  unfold AnalyzeText
  dsimp only
  split_ifs with h
  · rw [List.length_eq_zero.mp h]; rfl
  · rfl

theorem AnalyzeText_WordFrequency (Fields : String → List String)
    (ToLower : String → String) (round64 : ℚ → ℚ) (text : String) :
    (AnalyzeText Fields ToLower round64 text).WordFrequency
      = ((Fields text).foldl (wordStep ToLower) initialState).WordFrequency := by
  unfold AnalyzeText
  dsimp only
  split_ifs with h
  · rw [List.length_eq_zero.mp h]; rfl
  · rfl

theorem AnalyzeText_WordCount (Fields : String → List String)
    (ToLower : String → String) (round64 : ℚ → ℚ) (text : String) :
    (AnalyzeText Fields ToLower round64 text).WordCount = Int.ofNat (Fields text).length := by
  unfold AnalyzeText
  dsimp only
  split_ifs with h
  · rw [h]; rfl
  · rfl

/-- C19: for every input text, `LongestWords` is the list of the distinct
lower-cased words whose byte length equals the maximum word length, each at the
place of its first occurrence: it has no duplicates, it holds exactly the
lower-cased words of maximal length, and it is empty if and only if the text
has no words. -/
theorem LongestWords_are_longest_distinct (Fields : String → List String)
    (ToLower : String → String) (round64 : ℚ → ℚ) (text : String) :
    (AnalyzeText Fields ToLower round64 text).LongestWords
      = firstOccurrences ((lowerWords Fields ToLower text).filter
          (fun w => decide (byteLen w = maxLength (lowerWords Fields ToLower text)))) ∧
    (AnalyzeText Fields ToLower round64 text).LongestWords.Nodup ∧
    (∀ w, w ∈ (AnalyzeText Fields ToLower round64 text).LongestWords ↔
      w ∈ lowerWords Fields ToLower text ∧
        byteLen w = maxLength (lowerWords Fields ToLower text)) ∧
    ((AnalyzeText Fields ToLower round64 text).LongestWords = [] ↔ Fields text = []) := by
  have hspec : (AnalyzeText Fields ToLower round64 text).LongestWords
      = firstOccurrences ((lowerWords Fields ToLower text).filter
          (fun w => decide (byteLen w = maxLength (lowerWords Fields ToLower text)))) := by
    rw [AnalyzeText_LongestWords]
    exact (loop_invariant ToLower (Fields text)).2.2.2.2.2.2
  have hmem : ∀ w, w ∈ (AnalyzeText Fields ToLower round64 text).LongestWords ↔
      w ∈ lowerWords Fields ToLower text ∧
        byteLen w = maxLength (lowerWords Fields ToLower text) := by
    intro w
    rw [hspec, mem_firstOccurrences, List.mem_filter, decide_eq_true_eq]
  refine ⟨hspec, by rw [hspec]; exact nodup_firstOccurrences _, hmem, ?_⟩
  constructor
  · intro hnil
    by_contra hne
    have hne' : lowerWords Fields ToLower text ≠ [] := by
      simpa [lowerWords] using hne
    obtain ⟨x, hx, hxl⟩ := exists_maxLength _ hne'
    have := (hmem x).mpr ⟨hx, hxl⟩
    rw [hnil] at this
    simp at this
  · intro hnil
    rw [hspec]
    simp [lowerWords, hnil, firstOccurrences]

/-- C20: for every input text, `WordCount` is the number of whitespace-separated
words and the sum of all values of `WordFrequency`; the keys of `WordFrequency`
are distinct and are exactly the lower-cased words; the value at each key is the
number of words whose lower-cased form is the key, and is at least 1; and a text
without words gives `WordCount` 0, empty `LongestWords` and empty
`WordFrequency`. -/
theorem WordCount_and_WordFrequency (Fields : String → List String)
    (ToLower : String → String) (round64 : ℚ → ℚ) (text : String) :
    (AnalyzeText Fields ToLower round64 text).WordCount = Int.ofNat (Fields text).length ∧
    ((AnalyzeText Fields ToLower round64 text).WordFrequency.map Prod.snd).sum
      = (AnalyzeText Fields ToLower round64 text).WordCount ∧
    ((AnalyzeText Fields ToLower round64 text).WordFrequency.map Prod.fst).Nodup ∧
    (∀ k, k ∈ (AnalyzeText Fields ToLower round64 text).WordFrequency.map Prod.fst ↔
      k ∈ lowerWords Fields ToLower text) ∧
    (∀ k, freqGet (AnalyzeText Fields ToLower round64 text).WordFrequency k
      = Int.ofNat (((Fields text).map ToLower).count k)) ∧
    (∀ p ∈ (AnalyzeText Fields ToLower round64 text).WordFrequency,
      p.2 = Int.ofNat (((Fields text).map ToLower).count p.1) ∧ 1 ≤ p.2) ∧
    (Fields text = [] →
      (AnalyzeText Fields ToLower round64 text).WordCount = 0 ∧
      (AnalyzeText Fields ToLower round64 text).LongestWords = [] ∧
      (AnalyzeText Fields ToLower round64 text).WordFrequency = []) := by
  obtain ⟨hget, hkeys, hpos, hsum, -, -, -⟩ := loop_invariant ToLower (Fields text)
  have hnd : ((AnalyzeText Fields ToLower round64 text).WordFrequency.map Prod.fst).Nodup := by
    rw [AnalyzeText_WordFrequency, hkeys]; exact nodup_firstOccurrences _
  refine ⟨AnalyzeText_WordCount _ _ _ _, ?_, hnd, ?_, ?_, ?_, ?_⟩
  · rw [AnalyzeText_WordFrequency, AnalyzeText_WordCount, hsum]
  · intro k
    rw [AnalyzeText_WordFrequency, hkeys, mem_firstOccurrences]
    rfl
  · intro k
    rw [AnalyzeText_WordFrequency]; exact hget k
  · intro p hp
    have hval := freqGet_of_mem _ hnd p hp
    rw [AnalyzeText_WordFrequency] at hp hval
    exact ⟨by rw [← hval]; exact hget p.1, hpos p hp⟩
  · intro hnil
    refine ⟨?_, ?_, ?_⟩
    · rw [AnalyzeText_WordCount, hnil]; rfl
    · rw [AnalyzeText_LongestWords, hnil]; rfl
    · rw [AnalyzeText_WordFrequency, hnil]; rfl

/-- The demo input of `main`: 11 words, `The`/`the` counted together three
times, and the three five-letter words in order of first occurrence. -/
theorem demoText_statistics :
    (AnalyzeText asciiFields asciiToLower id demoText).WordCount = 11 ∧
    freqGet (AnalyzeText asciiFields asciiToLower id demoText).WordFrequency "the" = 3 ∧
    (AnalyzeText asciiFields asciiToLower id demoText).LongestWords
      = ["quick", "brown", "jumps"] ∧
    (AnalyzeText asciiFields asciiToLower id "  ").WordCount = 0 := by
  decide

/-- On exact results between 1 and 1024 every `float64` operation is within
relative error `2^-52` (round to nearest is within `2^-53` there). -/
theorem round64_bounds (round64 : ℚ → ℚ)
    (herr : ∀ x : ℚ, 1 ≤ x → x ≤ 1024 → |round64 x - x| ≤ x / 2 ^ 52)
    (x : ℚ) (hx1 : 1 ≤ x) (hx2 : x ≤ 1024) :
    x - x / 4503599627370496 ≤ round64 x ∧ round64 x ≤ x + x / 4503599627370496 := by
  have h := herr x hx1 hx2
  have hE : (2 : ℚ) ^ 52 = 4503599627370496 := by norm_num
  rw [hE] at h
  have := abs_le.mp h
  constructor <;> linarith

/-- The two assignments on 41 letters in 11 words, whatever the rounding of the
floating-point operations: the product `average * 100` lies strictly between
372 and 373, so `int(...)` gives 372 and the result is `372 / 100` in
`float64`, below 3.725. -/
theorem averageWordLength_41_11 (round64 : ℚ → ℚ)
    (herr : ∀ x : ℚ, 1 ≤ x → x ≤ 1024 → |round64 x - x| ≤ x / 2 ^ 52) :
    averageWordLength round64 41 11 = round64 (round64 372 / 100) ∧
    3715 / 1000 < averageWordLength round64 41 11 ∧
    averageWordLength round64 41 11 < 3725 / 1000 := by
  have hb := round64_bounds round64 herr
  have ht := hb 41 (by norm_num) (by norm_num)
  have hc := hb 11 (by norm_num) (by norm_num)
  have hcpos : (0 : ℚ) < round64 11 := by linarith
  have hq1 : (37272 : ℚ) / 10000 ≤ round64 41 / round64 11 := by
    rw [le_div_iff₀ hcpos]; linarith
  have hq2 : round64 41 / round64 11 ≤ (37273 : ℚ) / 10000 := by
    rw [div_le_iff₀ hcpos]; linarith
  have ha := hb (round64 41 / round64 11) (by linarith) (by linarith)
  have ha1 : (37271 : ℚ) / 10000 ≤ round64 (round64 41 / round64 11) := by linarith
  have ha2 : round64 (round64 41 / round64 11) ≤ (37274 : ℚ) / 10000 := by linarith
  have hp := hb (round64 (round64 41 / round64 11) * 100) (by linarith) (by linarith)
  have hp1 : (372 : ℚ) < round64 (round64 (round64 41 / round64 11) * 100) := by linarith
  have hp2 : round64 (round64 (round64 41 / round64 11) * 100) < 373 := by linarith
  have hfloor : ⌊round64 (round64 (round64 41 / round64 11) * 100)⌋ = 372 := by
    rw [Int.floor_eq_iff]
    constructor
    · push_cast; linarith
    · push_cast; linarith
  have htrunc : truncate (round64 (round64 (round64 41 / round64 11) * 100)) = 372 := by
    unfold truncate
    rw [if_pos (by linarith), hfloor]
  have hval : averageWordLength round64 41 11 = round64 (round64 372 / 100) := by
    unfold averageWordLength
    simp only [Int.cast_ofNat]
    rw [htrunc]
    simp
  have hs := hb 372 (by norm_num) (by norm_num)
  have hr := hb (round64 372 / 100) (by linarith) (by linarith)
  refine ⟨hval, ?_, ?_⟩
  · rw [hval]; linarith
  · rw [hval]; linarith

/-- The demo run reaches the averaging step with 41 letters in 11 words. -/
theorem demoText_average (round64 : ℚ → ℚ) :
    (AnalyzeText asciiFields asciiToLower round64 demoText).AverageWordLength
      = averageWordLength round64 41 11 := by
  have hw : asciiFields demoText
      = ["The", "quick", "brown", "fox", "jumps", "over", "the", "lazy", "dog", "the", "fox"] := by
    decide
  have ht : ((asciiFields demoText).foldl (wordStep asciiToLower) initialState).totalLetters
      = 41 := by decide
  unfold AnalyzeText
  simp only [ht]
  rw [hw]
  rfl

/-- C16 fails in the code: on the demo input (41 letters, 11 words, mean
3.7272...) `AverageWordLength` is `float64(372) / 100`, a value below 3.725,
because `int(...)` truncates; the mean rounded to 2 decimal places is 3.73.
This holds for every rounding of the floating-point operations within relative
error `2^-52` on results between 1 and 1024, as `float64` is. -/
theorem AverageWordLength_is_truncated (round64 : ℚ → ℚ)
    (herr : ∀ x : ℚ, 1 ≤ x → x ≤ 1024 → |round64 x - x| ≤ x / 2 ^ 52) :
    (AnalyzeText asciiFields asciiToLower round64 demoText).AverageWordLength
      = round64 (round64 372 / 100) ∧
    (AnalyzeText asciiFields asciiToLower round64 demoText).AverageWordLength < 3725 / 1000 ∧
    3715 / 1000 < (AnalyzeText asciiFields asciiToLower round64 demoText).AverageWordLength ∧
    roundedMean 41 11 = 373 / 100 ∧
    (AnalyzeText asciiFields asciiToLower round64 demoText).AverageWordLength
      ≠ roundedMean 41 11 := by
  have h := averageWordLength_41_11 round64 herr
  have hr : roundedMean 41 11 = 373 / 100 := by
    unfold roundedMean
    have : round ((41 : ℚ) / 11 * 100) = 373 := by
      rw [round_eq, Int.floor_eq_iff]
      constructor <;> norm_num
    simp only [Int.cast_ofNat]
    rw [this]
    norm_num
  rw [demoText_average]
  refine ⟨h.1, h.2.2, h.2.1, hr, ?_⟩
  rw [hr]
  intro heq
  have := h.2.2
  rw [heq] at this
  norm_num at this

theorem AverageWordLength_is_truncated_witness :
    (AnalyzeText asciiFields asciiToLower id demoText).AverageWordLength = 372 / 100 ∧
    (AnalyzeText asciiFields asciiToLower id demoText).AverageWordLength < 3725 / 1000 :=
  ⟨(AverageWordLength_is_truncated id (fun x hx _ => by
      simp only [id, sub_self, abs_zero]; positivity)).1,
   (AverageWordLength_is_truncated id (fun x hx _ => by
      simp only [id, sub_self, abs_zero]; positivity)).2.1⟩

end TextStats
